import Mathlib

/-!
Verification development for the keras-nlp sampling core and the
RandomSwap preprocessing layer.

The sampler implementations (`TopPSampler`, `ContrastiveSampler` and the
shared decoding loop) are not part of the source tree here; only their
test files are.  Following the specification document, the sampler data
model and algorithms are therefore modelled from the spec's words
(sections 4.1-4.3, 6, 7): token buffers are lists of lists of naturals,
logits are rationals, and the softmax exponential is represented by a
fixed computable strictly monotone positive surrogate `expQ` (the spec
declares bit-exact numerics a non-goal; every property proved below
depends only on order and threshold facts that also hold for the real
exponential).  `RandomSwap` is embedded directly from
`keras_nlp/layers/preprocessing/random_swap.py`.
-/

namespace KerasNlp

set_option maxRecDepth 100000

section Sampling

attribute [local semireducible] Rat.add Rat.mul Rat.sub Rat.inv

variable {C Hn H : Type}

/-! ## Softmax over rational logits -/

/-- `2 ^ k` over ℚ for an integer exponent, computed with natural-number
powers so that it evaluates by kernel reduction. -/
def pow2 (k : ℤ) : ℚ :=
  if 0 ≤ k then ((2 ^ k.toNat : ℕ) : ℚ) else 1 / ((2 ^ (-k).toNat : ℕ) : ℚ)

/-- Modelled from the spec: the sampler converts (temperature-scaled) logits
to probabilities with a softmax (spec 4.2 step 3 speaks of candidate
probabilities, 4.3 step 4 of softmax probabilities).  The real exponential is
transcendental, so the model uses the computable strictly monotone positive
surrogate `expQ x = 2 ^ floor (x / 10^8) * (1 + frac (x / 10^8))`, a piecewise
linear interpolation of `2 ^ (x / 10^8)`. -/
def expQ (x : ℚ) : ℚ :=
  pow2 ⌊x / 100000000⌋ * (1 + (x / 100000000 - ⌊x / 100000000⌋))

/-- Modelled from the spec: softmax of a row of logits. -/
def softmax (logits : List ℚ) : List ℚ :=
  let w := logits.map expQ
  w.map (fun q => q / w.sum)

/-! ## Sorting token indices by descending value, ties by ascending index -/

/-- Sorting relation on token indices: higher value first, ties broken by
original index ascending (spec 4.2 step 2 and the design note on
tie-breaking). -/
def sortRel (xs : List ℚ) (i j : ℕ) : Prop :=
  xs.getD j 0 < xs.getD i 0 ∨ (xs.getD i 0 = xs.getD j 0 ∧ i ≤ j)

instance (xs : List ℚ) : DecidableRel (sortRel xs) := fun i j => by
  unfold sortRel; infer_instance

instance (xs : List ℚ) : IsTotal ℕ (sortRel xs) := by
  constructor
  intro i j
  rcases lt_trichotomy (xs.getD i 0) (xs.getD j 0) with h | h | h
  · exact Or.inr (Or.inl h)
  · rcases Nat.le_total i j with hij | hij
    · exact Or.inl (Or.inr ⟨h, hij⟩)
    · exact Or.inr (Or.inr ⟨h.symm, hij⟩)
  · exact Or.inl (Or.inl h)

instance (xs : List ℚ) : IsTrans ℕ (sortRel xs) := by
  constructor
  intro a b c hab hbc
  rcases hab with h1 | ⟨h1, h1i⟩
  · rcases hbc with h2 | ⟨h2, _⟩
    · exact Or.inl (h2.trans h1)
    · exact Or.inl (h2 ▸ h1)
  · rcases hbc with h2 | ⟨h2, h2i⟩
    · exact Or.inl (h1 ▸ h2)
    · exact Or.inr ⟨h1.trans h2, h1i.trans h2i⟩

/-- Indices `0, ..., xs.length - 1` sorted by descending value of `xs`,
ties by ascending index. -/
def sortIdx (xs : List ℚ) : List ℕ :=
  List.insertionSort (sortRel xs) (List.range xs.length)

/-! ## Top-P nucleus truncation (spec 4.2) -/

/-- Modelled from the spec: length of the retained prefix of the
descending-probability-sorted candidate list: the smallest `m >= 1` whose
cumulative probability is at least `p`; if no prefix qualifies, fall back to
keeping the top-1 token (spec 4.2 step 3). -/
def keepLenAux (p : ℚ) : List ℚ → ℚ → Option ℕ
  | [], _ => none
  | q :: rest, acc =>
    if p ≤ acc + q then some 1 else (keepLenAux p rest (acc + q)).map (· + 1)

/-- The number of sorted candidates retained by nucleus truncation. -/
def keepLen (p : ℚ) (sortedProbs : List ℚ) : ℕ :=
  (keepLenAux p sortedProbs 0).getD 1

/-- Zero out the entries of `probs` whose position is not in `keep`
(spec 4.2 step 2: zero out the probability mass of tokens outside the top-k).
`i` is the position of the head of the list. -/
def maskIdxFrom (keep : List ℕ) : ℕ → List ℚ → List ℚ
  | _, [] => []
  | i, q :: rest => (if i ∈ keep then q else 0) :: maskIdxFrom keep (i + 1) rest

/-- Modelled from the spec: the per-row candidate probabilities after
temperature scaling (spec 4.2 step 1), the softmax, and the optional top-k
restriction (spec 4.2 step 2: keep the `k` highest-logit tokens, ties by
original index ascending, and zero out the probability mass of the rest). -/
def maskedProbs (k : Option ℕ) (temperature : ℚ) (logits : List ℚ) :
    List ℚ :=
  let scaled := logits.map (fun x => x / temperature)
  let probs := softmax scaled
  match k with
  | none => probs
  | some kk => maskIdxFrom ((sortIdx scaled).take kk) 0 probs

/-- The candidate token ids in descending order of (masked) probability,
ties by ascending index (spec 4.2 step 3). -/
def topPOrder (k : Option ℕ) (temperature : ℚ) (logits : List ℚ) : List ℕ :=
  sortIdx (maskedProbs k temperature logits)

/-- Modelled from the spec: the Top-P retained candidate ids for one row, in
descending-probability order: the smallest leading set of the sorted
candidates whose cumulative probability reaches `p`, at least the top-1
(spec 4.2 step 3). -/
def topPKeptIds (p : ℚ) (k : Option ℕ) (temperature : ℚ) (logits : List ℚ) :
    List ℕ :=
  let masked := maskedProbs k temperature logits
  let order := topPOrder k temperature logits
  order.take (keepLen p (order.map (fun i => masked.getD i 0)))

/-- Inverse-CDF draw: the first index whose cumulative mass strictly
exceeds the threshold `t`, clamped to the last index (spec 4.2 step 4:
draw one token from the truncated, renormalized distribution). -/
def drawIdx (t : ℚ) : List ℚ → ℕ
  | [] => 0
  | [_] => 0
  | q :: rest => if t < q then 0 else drawIdx (t - q) rest + 1

/-- Modelled from the spec: the whole Top-P selection for one row
(spec 4.2): temperature scaling, optional top-k restriction, nucleus
truncation, then a categorical draw driven by the uniform variate `u`
(spec 4.2 steps 4-5).  Renormalization (step 4) is realized by scaling the
draw threshold by the total retained mass instead of dividing every
probability by it. -/
def topPSelect (p : ℚ) (k : Option ℕ) (temperature : ℚ) (logits : List ℚ)
    (u : ℚ) : ℕ :=
  let masked := maskedProbs k temperature logits
  let ids := topPKeptIds p k temperature logits
  let kp := ids.map (fun i => masked.getD i 0)
  ids.getD (drawIdx (u * kp.sum) kp) 0

/-- A one-hot logits row: value `1e9` at token `hot`, `0` elsewhere (the
test harness's overwhelming one-hot distribution). -/
def oneHotLogits (n hot : ℕ) : List ℚ :=
  (List.range n).map (fun i => if i = hot then 1000000000 else 0)

/-! ## The shared decoding loop (spec 4.1)

The Decoding Loop Controller is modelled from the spec: a prompt buffer is a
list of rows of token ids; per step it calls the user-supplied next-token
function, applies the selection policy, writes the chosen token at the
current position with a branch-free masked write (done rows keep their
value), updates the done mask from the stop-token set, and iterates from
`index` to `length - 1`.  The early-exit-when-all-done short-circuit is an
optimization with no semantic difference (spec 4.1, design notes) and is not
modelled. -/

/-- One batch row of token ids. -/
abbrev TokRow := List ℕ

/-- A prompt buffer: `[batch, length]` token ids. -/
abbrev PromptBuf := List TokRow

/-- The mutable state threaded through the decoding loop: the working copy
of the prompt buffer, the opaque cache, the hidden-state history (used by
the contrastive policy; `Unit` for Top-P), and the per-row done mask. -/
structure LoopState (C : Type) (H : Type) where
  prompt : PromptBuf
  cache : C
  hidden : H
  done : List Bool

/-- A next-token function (spec 6): `(prompt, cache, index) ->
(logits, hidden_states, cache)`. `Hn` is the per-call hidden-state type. -/
abbrev NextFn (C Hn : Type) := PromptBuf → C → ℕ → List (List ℚ) × Hn × C

/-- A selection policy: consumes the pre-step loop state, the result of the
next-token call and the step index, and produces one token per row together
with the cache and hidden history to carry forward (spec 4.1 step 2,
abstracted over the two concrete policies). -/
abbrev Policy (C Hn H : Type) :=
  LoopState C H → List (List ℚ) × Hn × C → ℕ → List ℕ × C × H

/-- Spec 4.1 step 3: for rows already marked done, keep the existing value at
position `step` unchanged; for others, write that row's `next_token` at
position `step` (branch-free masked write). -/
def writeMasked (step : ℕ) : PromptBuf → List Bool → List ℕ → PromptBuf
  | [], _, _ => []
  | row :: rows, ds, ts =>
    (if ds.headD false then row else row.set step (ts.headD 0)) ::
      writeMasked step rows ds.tail ts.tail

/-- Spec 4.1 step 4: mark rows done whose `next_token` belongs to the
stop-token set; the done mask is monotone (never reverts). -/
def doneUpdate (stop : List ℕ) : List Bool → List ℕ → List Bool
  | [], _ => []
  | d :: ds, ts => (d || stop.contains (ts.headD 0)) :: doneUpdate stop ds ts.tail

/-- One iteration of the decoding loop at position `step` (spec 4.1 steps
1-4). -/
def decodeStep (next : NextFn C Hn) (policy : Policy C Hn H) (stop : List ℕ)
    (st : LoopState C H) (step : ℕ) : LoopState C H :=
  let res := next st.prompt st.cache step
  let sel := policy st res step
  { prompt := writeMasked step st.prompt st.done sel.1
    cache := sel.2.1
    hidden := sel.2.2
    done := doneUpdate stop st.done sel.1 }

/-- The decoding loop: `fuel` iterations starting at position `step`. -/
def decodeLoop (next : NextFn C Hn) (policy : Policy C Hn H) (stop : List ℕ) :
    ℕ → LoopState C H → ℕ → LoopState C H
  | 0, st, _ => st
  | fuel + 1, st, step =>
    decodeLoop next policy stop fuel (decodeStep next policy stop st step) (step + 1)

/-- Modelled from the spec: the sampler invocation
`run(next_fn, prompt, cache, index, stop_token_ids, hidden_states?)`
(spec 4.1): iterate from `index` through `length - 1` and return the mutated
prompt buffer. -/
def runSampler (next : NextFn C Hn) (policy : Policy C Hn H) (prompt : PromptBuf)
    (cache : C) (hidden : H) (index : ℕ) (stop : List ℕ) : PromptBuf :=
  let len := (prompt.headD []).length
  (decodeLoop next policy stop (len - index)
    ⟨prompt, cache, hidden, List.replicate prompt.length false⟩ index).prompt

/-! ## The Top-P sampler (spec 4.2, 6, 7) -/

/-- Modelled from the spec: the Top-P policy applied batch-wise: row `r` of
the logits is selected with the uniform variate `u step r` (spec 5:
randomness comes from an explicit per-step, per-row draw).  Top-P does not
use hidden states and forwards the cache returned by the next-token call. -/
def topPPolicy (p : ℚ) (k : Option ℕ) (temperature : ℚ) (u : ℕ → ℕ → ℚ) :
    Policy C Hn Unit :=
  fun st res step =>
    ((List.range st.prompt.length).map
        (fun r => topPSelect p k temperature ((res.1).getD r []) (u step r)),
      res.2.2, ())

/-- Modelled from the spec: a full Top-P sampler call (spec 6): parameters
`p`, optional `k`, `temperature` from construction, `u` the stream of uniform
draws standing for the seeded RNG, then `next`, `prompt`, `cache`, `index`,
`stop_token_ids`. -/
def topPCall (p : ℚ) (k : Option ℕ) (temperature : ℚ) (u : ℕ → ℕ → ℚ)
    (next : NextFn C Hn) (prompt : PromptBuf) (cache : C) (index : ℕ)
    (stop : List ℕ) : PromptBuf :=
  runSampler next (topPPolicy p k temperature u) prompt cache () index stop

/-- Modelled from the spec: the configured `k`, when given, fails the
construction-time check when it is not a positive integer. -/
def kNonPositive (k : Option ℤ) : Bool :=
  match k with
  | some kv => decide (kv ≤ 0)
  | none => false

/-- Modelled from the spec: construction-time validation of the Top-P
sampler configuration (spec 4.2 error conditions and section 7): `p` outside
`(0, 1]` and a non-positive `k` are rejected at construction time with a
descriptive validation error.  (The vocabulary size is unknown at
construction, so the upper bound on `k` cannot be checked there.) -/
def topPValidate (p : ℚ) (k : Option ℤ) : Except String Unit :=
  if p ≤ 0 ∨ 1 < p then
    Except.error "Invalid p: nucleus mass threshold must lie in the interval (0, 1]."
  else if kNonPositive k then
    Except.error "Invalid k: candidate cap must be a positive integer."
  else Except.ok ()

/-! ## The Contrastive sampler (spec 4.3) -/

/-- Dot product of two rational vectors. -/
def dotQ (u v : List ℚ) : ℚ := (List.zipWith (fun a b => a * b) u v).sum

/-- Modelled from the spec: cosine similarity between hidden-state vectors
(spec 4.3 step 3).  The true cosine needs a square root, so the model uses
the order-isomorphic signed square
`simQ u v = <u,v> * |<u,v>| / (<u,u> * <v,v>)`: it is a strictly monotone
image of the cosine, equals `1` exactly when the cosine is `1`, and the
contrastive policy only ever compares similarities, so every selection made
with `simQ` agrees with the selection made with the true cosine whenever the
comparison weights agree (in particular for `alpha = 1`, where the score is
the negated penalty). -/
def simQ (u v : List ℚ) : ℚ :=
  dotQ u v * |dotQ u v| / (dotQ u u * dotQ v v)

/-- Spec 4.3 step 3: the degeneration penalty of a candidate state is the
maximum similarity against every prior position's hidden state. -/
def maxSim (s : List ℚ) : List (List ℚ) → ℚ
  | [] => 0
  | v :: vs => (vs.map (simQ s)).foldl max (simQ s v)

/-- First index of a maximal element (argmax with ties broken by the
smallest index, spec 4.3 step 5). -/
def argmaxIdx : List ℚ → ℕ
  | [] => 0
  | x :: xs =>
    match xs with
    | [] => 0
    | _ :: _ => if xs.getD (argmaxIdx xs) 0 ≤ x then 0 else argmaxIdx xs + 1

/-- Spec 4.3 step 4: score each candidate as
`(1 - alpha) * candidate_probability - alpha * degeneration_penalty`, where
the probability is the softmax among the k candidates. -/
def contrastiveScores (alpha : ℚ) (candProbs : List ℚ)
    (candStates : List (List ℚ)) (priors : List (List ℚ)) : List ℚ :=
  List.zipWith (fun pr s => (1 - alpha) * pr - alpha * maxSim s priors)
    candProbs candStates

/-- The slot (position in the candidate list) selected by the contrastive
scoring (spec 4.3 steps 4-5). -/
def contrastiveChosenSlot (alpha : ℚ) (candLogits : List ℚ)
    (candStates : List (List ℚ)) (priors : List (List ℚ)) : ℕ :=
  argmaxIdx (contrastiveScores alpha (softmax candLogits) candStates priors)

/-- Modelled from the spec: one contrastive selection step for a single row
(spec 4.3): scale logits by `1/temperature`, take the top-k candidates by
scaled logit (ties by ascending index), and pick the candidate maximizing
the contrastive score, given the lookahead-induced state of each candidate
and the prior positions' hidden states. -/
def contrastiveSelectStep (k : ℕ) (alpha temperature : ℚ) (logits : List ℚ)
    (candStates : List (List ℚ)) (priors : List (List ℚ)) : ℕ :=
  let scaled := logits.map (fun x => x / temperature)
  let cands := (sortIdx scaled).take k
  let candLogits := cands.map (fun i => scaled.getD i 0)
  cands.getD (contrastiveChosenSlot alpha candLogits candStates priors) 0

/-- Modelled from the spec: the contrastive policy (spec 4.3).  Per step it
performs one extra lookahead invocation of `next` per candidate slot (the
spec batches the k slots into one call with a k-fold batch dimension; the
model makes the k calls separately, which is the same function evaluated on
the same extended prompts), scores every candidate, writes the chosen
candidate's induced hidden state into the hidden history at the current
position, and returns the chosen tokens.  The cache is threaded through
unchanged from the pre-lookahead call: the spec's per-row gather of the
chosen candidate's cache is not expressible on an opaque cache type. -/
def contrastivePolicy (k : ℕ) (alpha temperature : ℚ)
    (next : NextFn C (List (List ℚ))) :
    Policy C (List (List ℚ)) (List (List (List ℚ))) :=
  fun st res step =>
    let logits := res.1
    let cache1 := res.2.2
    let B := st.prompt.length
    let scaledRow := fun r => (logits.getD r []).map (fun x => x / temperature)
    let candsRow := fun r => (sortIdx (scaledRow r)).take k
    let lookahead := fun (c : ℕ) =>
      let toks := (List.range B).map (fun r => (candsRow r).getD c 0)
      let extended := writeMasked step st.prompt (List.replicate B false) toks
      (next extended cache1 (step + 1)).2.1
    let states := (List.range k).map lookahead
    let slots := (List.range B).map (fun r =>
      contrastiveChosenSlot alpha
        ((candsRow r).map (fun i => (scaledRow r).getD i 0))
        ((List.range k).map (fun c => (states.getD c []).getD r []))
        ((st.hidden.getD r []).take step))
    let toks := (List.range B).map (fun r => (candsRow r).getD (slots.getD r 0) 0)
    let hidden2 := (List.range B).map (fun r =>
      (st.hidden.getD r []).set step
        ((states.getD (slots.getD r 0) []).getD r []))
    (toks, cache1, hidden2)

/-- Modelled from the spec: a full Contrastive sampler call (spec 4.3, 6):
parameters `k`, `alpha`, `temperature` from construction, then `next`,
`prompt`, `cache`, `hidden_states`, `index`, `stop_token_ids`. -/
def contrastiveCall (k : ℕ) (alpha temperature : ℚ)
    (next : NextFn C (List (List ℚ))) (prompt : PromptBuf) (cache : C)
    (hidden : List (List (List ℚ))) (index : ℕ) (stop : List ℕ) : PromptBuf :=
  runSampler next (contrastivePolicy k alpha temperature next) prompt cache
    hidden index stop

/-! ## The next-token functions used by the test scenarios
(`top_p_sampler_test.py` / `contrastive_sampler_test.py`) -/

/-- The tests' stateful `next`: a distribution favoring the next character
in the cache, `logits = one_hot(cache[:, index], vocab) * 1e9`, constant
all-ones hidden states, cache returned unchanged. -/
def cacheNext (vocab hiddenDim : ℕ) : NextFn (List (List ℕ)) (List (List ℚ)) :=
  fun p c i =>
    (c.map (fun row => oneHotLogits vocab (row.getD i 0)),
     p.map (fun _ => List.replicate hiddenDim 1),
     c)

/-- The stateless tests' `next`: a distribution favoring token `hot`
(`one_hot(zeros, vocab) * 1e9` has `hot = 0`), constant hidden states,
cache passed through. -/
def constHotNext (vocab hot hiddenDim : ℕ) : NextFn C (List (List ℚ)) :=
  fun p c _ =>
    (p.map (fun _ => oneHotLogits vocab hot),
     p.map (fun _ => List.replicate hiddenDim 1),
     c)

/-- The top-k/outputs-in-top-k tests' `next`: each id progressively less
likely, `logits = arange(vocab, 0, -1)`. -/
def descLogitsNext (vocab hiddenDim : ℕ) : NextFn C (List (List ℚ)) :=
  fun p c _ =>
    (p.map (fun _ => (List.range vocab).map (fun t => ((vocab - t : ℕ) : ℚ))),
     p.map (fun _ => List.replicate hiddenDim 1),
     c)

/-- The outputs-in-top-p test's `next`: zeros with the first three logits
set to one. -/
def threeHotNext (vocab hiddenDim : ℕ) : NextFn C (List (List ℚ)) :=
  fun p c _ =>
    (p.map (fun _ => (List.range vocab).map (fun t => if t < 3 then (1 : ℚ) else 0)),
     p.map (fun _ => List.replicate hiddenDim 1),
     c)

/-- The token ids of the string "sequentially" over the a-z vocabulary. -/
def sequentiallyIds : List ℕ := [18, 4, 16, 20, 4, 13, 19, 8, 0, 11, 11, 24]

/-- A reference decoding run with a fixed token function `tok` in place of
the stochastic selection: used to state that a sampler run whose per-step
selection is deterministic coincides with this trace. -/
def refLoop (stop : List ℕ) (tok : ℕ → ℕ → ℕ) :
    ℕ → PromptBuf × List Bool → ℕ → PromptBuf × List Bool
  | 0, st, _ => st
  | fuel + 1, st, step =>
    let ts := (List.range st.1.length).map (fun r => tok step r)
    refLoop stop tok fuel
      (writeMasked step st.1 st.2 ts, doneUpdate stop st.2 ts) (step + 1)

/-! ## RandomSwap, embedded from
`keras_nlp/layers/preprocessing/random_swap.py` -/

/-- The constructor's dtype argument, abstracted to what
`is_int_dtype` / `is_string_dtype` test. -/
inductive SwapDType where
  | int
  | str
  | other
deriving DecidableEq

/-- How many of the three skip arguments are `None`
(`[self.skip_list, self.skip_fn, self.skip_py_fn].count(None)`). -/
def countNoneSkips {τ : Type} (skipList : Option (List τ))
    (skipFn skipPyFn : Option (τ → Bool)) : ℕ :=
  (if skipList.isNone then 1 else 0) + (if skipFn.isNone then 1 else 0) +
    (if skipPyFn.isNone then 1 else 0)

/-- The `self.max_swaps is not None and self.max_swaps < 0` test of
`RandomSwap.__init__` (lines 151-155). -/
def maxSwapsNegative (maxSwaps : Option ℤ) : Bool :=
  match maxSwaps with
  | some m => decide (m < 0)
  | none => false

/-- `RandomSwap.__init__` validation, embedded from `random_swap.py` lines
124-161: reject a dtype that is neither integer nor string; reject a
negative `max_swaps`; reject when fewer than two of the three skip arguments
are `None` (i.e. when at least two are provided). -/
def randomSwapInit {τ : Type} (dtype : SwapDType) (maxSwaps : Option ℤ)
    (skipList : Option (List τ)) (skipFn skipPyFn : Option (τ → Bool)) :
    Except String Unit :=
  if ¬(dtype = SwapDType.int ∨ dtype = SwapDType.str) then
    Except.error "Output dtype must be an integer type or a string."
  else if maxSwapsNegative maxSwaps then
    Except.error "max_swaps must be non-negative."
  else if countNoneSkips skipList skipFn skipPyFn < 2 then
    Except.error "Exactly one of skip_list, skip_fn, skip_py_fn must be provided."
  else
    Except.ok ()

/-- The three mutually exclusive skip mechanisms of `RandomSwap.call`
(lines 175-196): a static hash table built from `skip_list`, a traced
`skip_fn`, or a python `skip_py_fn`; all three reduce to a boolean
predicate on tokens. -/
inductive SkipSpec (τ : Type) where
  | noSkip
  | ofList (l : List τ)
  | ofFn (f : τ → Bool)
  | ofPyFn (f : τ → Bool)

/-- The skip mask a `SkipSpec` induces on a token. -/
def skipPred {τ : Type} [DecidableEq τ] : SkipSpec τ → τ → Bool
  | SkipSpec.noSkip, _ => false
  | SkipSpec.ofList l, t => l.contains t
  | SkipSpec.ofFn f, t => f t
  | SkipSpec.ofPyFn f, t => f t

/-- One swap of `RandomSwap.call._swap` (lines 231-237):
`tf.tensor_scatter_nd_update(inputs, [[index1], [index2]],
[inputs[index2], inputs[index1]])` — the tokens at the two sampled
positions are exchanged (with the second update winning when the positions
coincide, which leaves the row unchanged). -/
def swapOnce {τ : Type} (row : List τ) (i j : ℕ) : List τ :=
  match row[i]?, row[j]? with
  | some a, some b => (row.set i b).set j a
  | _, _ => row

/-- The `for _ in range(num_to_select)` loop of `_swap` (lines 223-237):
iteration `t` draws a pair of indices into `positions` (the drawn pair is
produced by the `draws` oracle, standing for
`tf.random.stateless_uniform(shape=[2], maxval=tf.size(positions))`, hence
reduced modulo the number of positions) and swaps the two addressed
tokens. -/
def swapIterFrom {τ : Type} (positions : List ℕ) (draws : ℕ → ℕ × ℕ) :
    ℕ → ℕ → List τ → List τ
  | _, 0, row => row
  | t, n + 1, row =>
    let d := draws t
    let i1 := positions.getD (d.1 % positions.length) 0
    let i2 := positions.getD (d.2 % positions.length) 0
    swapIterFrom positions draws (t + 1) n (swapOnce row i1 i2)

/-- `RandomSwap.call` restricted to one row (lines 172-246): compute the
skip mask from the row, keep the non-skipped positions, draw how many swaps
to perform (`numSel` stands for the `tf.random.stateless_binomial` draw),
clamp it by `max_swaps` and by the number of eligible positions, and run
the swap loop. -/
def randomSwapRow {τ : Type} [DecidableEq τ] (skip : SkipSpec τ)
    (maxSwaps : Option ℤ) (numSel : ℕ) (draws : ℕ → ℕ × ℕ) (row : List τ) :
    List τ :=
  let positions := (List.range row.length).filter
    (fun i => match row[i]? with
      | some t => !skipPred skip t
      | none => false)
  let n1 := match maxSwaps with
    | some m => min numSel m.toNat
    | none => numSel
  let n := min n1 positions.length
  swapIterFrom positions draws 0 n row

/-- `RandomSwap.call` on a batch (the `tf.map_fn(_swap, ...)` at lines
240-246): each row is processed independently with its own binomial draw
and its own stream of index draws. -/
def randomSwapCall {τ : Type} [DecidableEq τ] (skip : SkipSpec τ)
    (maxSwaps : Option ℤ) (numSelOracle : ℕ → ℕ)
    (drawOracle : ℕ → ℕ → ℕ × ℕ) (inputs : List (List τ)) : List (List τ) :=
  (List.range inputs.length).map (fun r =>
    randomSwapRow skip maxSwaps (numSelOracle r) (drawOracle r)
      (inputs.getD r []))

/-! ## List access helper lemmas -/

theorem getD_tail {α : Type} (l : List α) (n : ℕ) (d : α) :
    l.tail.getD n d = l.getD (n + 1) d := by
  cases l <;> rfl

theorem getD_set_self {α : Type} {l : List α} {i : ℕ} (a d : α)
    (h : i < l.length) : (l.set i a).getD i d = a := by
  simp [List.getD_eq_getElem?_getD, List.getElem?_set_self h]

theorem getD_set_ne {α : Type} {l : List α} {i j : ℕ} (a d : α)
    (h : i ≠ j) : (l.set i a).getD j d = l.getD j d := by
  simp [List.getD_eq_getElem?_getD, List.getElem?_set_ne h]

theorem getD_range_map {α : Type} (f : ℕ → α) (n r : ℕ) (d : α) :
    ((List.range n).map f).getD r d = if r < n then f r else d := by
  simp only [List.getD_eq_getElem?_getD, List.getElem?_map]
  by_cases h : r < n
  · simp [List.getElem?_range, h]
  · rw [List.getElem?_eq_none (by simpa using Nat.le_of_not_lt h)]
    simp [h]

theorem getD_map_getD {α β : Type} (f : α → β) (l : List α) (r : ℕ)
    (da : α) (h : r < l.length) :
    (l.map f).getD r (f da) = f (l.getD r da) := by
  rw [List.getD_eq_getElem, List.getD_eq_getElem _ _ h] <;>
    simp [List.getElem_map, h]

theorem getD_zipWith {α β γ : Type} (f : α → β → γ) (a : List α) (b : List β)
    (i : ℕ) (da : α) (db : β) (dc : γ) (ha : i < a.length)
    (hb : i < b.length) :
    (List.zipWith f a b).getD i dc = f (a.getD i da) (b.getD i db) := by
  have hl : i < (List.zipWith f a b).length := by
    simp [List.length_zipWith]; omega
  rw [List.getD_eq_getElem _ _ hl, List.getD_eq_getElem _ _ ha,
    List.getD_eq_getElem _ _ hb]
  simp [List.getElem_zipWith]

/-! ## Generic lemmas about the decoding loop -/

theorem writeMasked_length (step : ℕ) (pr : PromptBuf) (ds : List Bool)
    (ts : List ℕ) : (writeMasked step pr ds ts).length = pr.length := by
  induction pr generalizing ds ts with
  | nil => rfl
  | cons row rows ih => simp [writeMasked, ih]

theorem writeMasked_getD (step : ℕ) (pr : PromptBuf) (ds : List Bool)
    (ts : List ℕ) (r : ℕ) :
    (writeMasked step pr ds ts).getD r [] =
      if ds.getD r false then pr.getD r []
      else (pr.getD r []).set step (ts.getD r 0) := by
  induction pr generalizing ds ts r with
  | nil => simp [writeMasked, List.getD]
  | cons row rows ih =>
    cases r with
    | zero =>
      simp only [writeMasked, List.getD_cons_zero]
      rcases ds with _ | ⟨d, ds⟩ <;> rcases ts with _ | ⟨t, ts⟩ <;> simp
    | succ r =>
      simp only [writeMasked, List.getD_cons_succ]
      rw [ih ds.tail ts.tail r, getD_tail, getD_tail]

theorem doneUpdate_length (stop : List ℕ) (ds : List Bool) (ts : List ℕ) :
    (doneUpdate stop ds ts).length = ds.length := by
  induction ds generalizing ts with
  | nil => rfl
  | cons d ds ih => simp [doneUpdate, ih]

theorem doneUpdate_getD (stop : List ℕ) (ds : List Bool) (ts : List ℕ)
    (r : ℕ) (h : r < ds.length) :
    (doneUpdate stop ds ts).getD r false =
      (ds.getD r false || stop.contains (ts.getD r 0)) := by
  induction ds generalizing ts r with
  | nil => simp at h
  | cons d ds ih =>
    cases r with
    | zero => cases ts <;> simp [doneUpdate]
    | succ r =>
      simp only [doneUpdate, List.getD_cons_succ]
      rw [ih ts.tail r (by simpa using h), getD_tail]

theorem doneUpdate_getD_mono (stop : List ℕ) (ds : List Bool) (ts : List ℕ)
    (r : ℕ) (h : ds.getD r false = true) :
    (doneUpdate stop ds ts).getD r false = true := by
  induction ds generalizing ts r with
  | nil => simp [List.getD] at h
  | cons d ds ih =>
    cases r with
    | zero => simp_all [doneUpdate]
    | succ r =>
      simp only [doneUpdate, List.getD_cons_succ] at h ⊢
      exact ih ts.tail r h

theorem decodeLoop_add (next : NextFn C Hn) (policy : Policy C Hn H)
    (stop : List ℕ) (a b : ℕ) (st : LoopState C H) (step : ℕ) :
    decodeLoop next policy stop (a + b) st step =
      decodeLoop next policy stop b (decodeLoop next policy stop a st step)
        (step + a) := by
  induction a generalizing st step with
  | zero => simp [decodeLoop]
  | succ a ih =>
    have h1 : a + 1 + b = (a + b) + 1 := by omega
    rw [h1]
    show decodeLoop next policy stop (a + b)
        (decodeStep next policy stop st step) (step + 1) = _
    rw [ih]
    have h2 : step + 1 + a = step + (a + 1) := by omega
    rw [h2]
    rfl

theorem decodeLoop_prompt_length (next : NextFn C Hn) (policy : Policy C Hn H)
    (stop : List ℕ) (fuel : ℕ) (st : LoopState C H) (step : ℕ) :
    (decodeLoop next policy stop fuel st step).prompt.length =
      st.prompt.length := by
  induction fuel generalizing st step with
  | zero => rfl
  | succ fuel ih =>
    rw [decodeLoop, ih]
    simp [decodeStep, writeMasked_length]

theorem decodeLoop_row_length (next : NextFn C Hn) (policy : Policy C Hn H)
    (stop : List ℕ) (fuel : ℕ) (st : LoopState C H) (step r : ℕ) :
    ((decodeLoop next policy stop fuel st step).prompt.getD r []).length =
      (st.prompt.getD r []).length := by
  induction fuel generalizing st step with
  | zero => rfl
  | succ fuel ih =>
    rw [decodeLoop, ih]
    simp only [decodeStep]
    rw [writeMasked_getD]
    by_cases h : st.done.getD r false
    · rw [if_pos h]
    · rw [if_neg h, List.length_set]

theorem decodeLoop_done_length (next : NextFn C Hn) (policy : Policy C Hn H)
    (stop : List ℕ) (fuel : ℕ) (st : LoopState C H) (step : ℕ) :
    (decodeLoop next policy stop fuel st step).done.length =
      st.done.length := by
  induction fuel generalizing st step with
  | zero => rfl
  | succ fuel ih =>
    rw [decodeLoop, ih]
    simp [decodeStep, doneUpdate_length]

theorem decodeLoop_done_mono (next : NextFn C Hn) (policy : Policy C Hn H)
    (stop : List ℕ) (fuel : ℕ) (st : LoopState C H) (step r : ℕ)
    (h : st.done.getD r false = true) :
    (decodeLoop next policy stop fuel st step).done.getD r false = true := by
  induction fuel generalizing st step with
  | zero => exact h
  | succ fuel ih =>
    rw [decodeLoop]
    exact ih _ _ (doneUpdate_getD_mono _ _ _ _ h)

theorem decodeLoop_frame (next : NextFn C Hn) (policy : Policy C Hn H)
    (stop : List ℕ) (fuel : ℕ) (st : LoopState C H) (step r j : ℕ)
    (hj : j < step ∨ step + fuel ≤ j) :
    ((decodeLoop next policy stop fuel st step).prompt.getD r []).getD j 0 =
      (st.prompt.getD r []).getD j 0 := by
  induction fuel generalizing st step with
  | zero => rfl
  | succ fuel ih =>
    rw [decodeLoop, ih _ _ (by omega)]
    simp only [decodeStep]
    rw [writeMasked_getD]
    have hne : step ≠ j := by omega
    by_cases h : st.done.getD r false
    · rw [if_pos h]
    · rw [if_neg h, getD_set_ne _ _ hne]

theorem decodeLoop_done_frozen (next : NextFn C Hn) (policy : Policy C Hn H)
    (stop : List ℕ) (fuel : ℕ) (st : LoopState C H) (step r : ℕ)
    (h : st.done.getD r false = true) :
    (decodeLoop next policy stop fuel st step).prompt.getD r [] =
      st.prompt.getD r [] := by
  induction fuel generalizing st step with
  | zero => rfl
  | succ fuel ih =>
    rw [decodeLoop, ih _ _ (doneUpdate_getD_mono _ _ _ _ h)]
    simp only [decodeStep]
    rw [writeMasked_getD, if_pos h]

/-! ## Selection lemmas for the Top-P policy -/

theorem drawIdx_lt_length (t : ℚ) (l : List ℚ) (h : l ≠ []) :
    drawIdx t l < l.length := by
  induction l generalizing t with
  | nil => simp at h
  | cons q rest ih =>
    cases rest with
    | nil => simp [drawIdx]
    | cons q2 rest2 =>
      by_cases hb : t < q
      · simp [drawIdx, hb]
      · simp only [drawIdx, if_neg hb, List.length_cons]
        have := ih (t - q) (by simp)
        simpa using this

theorem topPSelect_mem (p : ℚ) (k : Option ℕ) (temp : ℚ) (logits : List ℚ)
    (u : ℚ) (h : topPKeptIds p k temp logits ≠ []) :
    topPSelect p k temp logits u ∈ topPKeptIds p k temp logits := by
  unfold topPSelect
  have hmaplen :
      (topPKeptIds p k temp logits).length =
        ((topPKeptIds p k temp logits).map
          (fun i => (maskedProbs k temp logits).getD i 0)).length := by
    simp
  have hlt := drawIdx_lt_length
    (u * ((topPKeptIds p k temp logits).map
      (fun i => (maskedProbs k temp logits).getD i 0)).sum)
    ((topPKeptIds p k temp logits).map
      (fun i => (maskedProbs k temp logits).getD i 0))
    (by simpa using h)
  rw [List.getD_eq_getElem _ _ (by omega)]
  exact List.getElem_mem _

theorem topPSelect_singleton (p : ℚ) (k : Option ℕ) (temp : ℚ)
    (logits : List ℚ) (u : ℚ) (c : ℕ)
    (h : topPKeptIds p k temp logits = [c]) :
    topPSelect p k temp logits u = c := by
  unfold topPSelect
  rw [h]
  simp [drawIdx]

/-! ## A Top-P run with a deterministic per-step selection equals the
reference trace -/

theorem topPLoop_eq_refLoop (p : ℚ) (k : Option ℕ) (temp : ℚ)
    (u : ℕ → ℕ → ℚ) (next : NextFn C Hn) (cache0 : C) (B : ℕ)
    (L : ℕ → List (List ℚ)) (tok : ℕ → ℕ → ℕ) (stop : List ℕ)
    (hnext : ∀ pr i, pr.length = B → (next pr cache0 i).1 = L i ∧
      (next pr cache0 i).2.2 = cache0) :
    ∀ (fuel : ℕ) (pr : PromptBuf) (ds : List Bool) (step : ℕ),
      pr.length = B →
      (∀ s r, step ≤ s → s < step + fuel → r < B →
        topPSelect p k temp ((L s).getD r []) (u s r) = tok s r) →
      (decodeLoop next (topPPolicy p k temp u) stop fuel
          ⟨pr, cache0, (), ds⟩ step).prompt =
        (refLoop stop tok fuel (pr, ds) step).1 := by
  intro fuel
  induction fuel with
  | zero => intro pr ds step hB htok; rfl
  | succ fuel ih =>
    intro pr ds step hB htok
    have hts : (List.range pr.length).map
        (fun r => topPSelect p k temp ((next pr cache0 step).1.getD r [])
          (u step r)) =
        (List.range pr.length).map (fun r => tok step r) := by
      apply List.map_congr_left
      intro r hr
      rw [(hnext pr step hB).1]
      exact htok step r (le_refl _) (by omega) (hB ▸ List.mem_range.mp hr)
    have hstep : decodeStep next (topPPolicy p k temp u) stop
        ⟨pr, cache0, (), ds⟩ step =
        ⟨writeMasked step pr ds ((List.range pr.length).map (fun r => tok step r)),
          cache0, (),
          doneUpdate stop ds ((List.range pr.length).map (fun r => tok step r))⟩ := by
      simp only [decodeStep, topPPolicy]
      rw [hts, (hnext pr step hB).2]
    rw [decodeLoop, hstep]
    simp only [refLoop]
    rw [ih _ _ (step + 1) (by rwa [writeMasked_length])
      (fun s r h1 h2 hr => htok s r (by omega) (by omega) hr)]

theorem topPCall_eq_refLoop (p : ℚ) (k : Option ℕ) (temp : ℚ)
    (u : ℕ → ℕ → ℚ) (next : NextFn C Hn) (cache0 : C)
    (L : ℕ → List (List ℚ)) (tok : ℕ → ℕ → ℕ) (stop : List ℕ)
    (prompt : PromptBuf) (index : ℕ)
    (hnext : ∀ pr i, pr.length = prompt.length →
      (next pr cache0 i).1 = L i ∧ (next pr cache0 i).2.2 = cache0)
    (htok : ∀ s r, index ≤ s → s < (prompt.headD []).length →
      r < prompt.length →
      topPSelect p k temp ((L s).getD r []) (u s r) = tok s r) :
    topPCall p k temp u next prompt cache0 index stop =
      (refLoop stop tok ((prompt.headD []).length - index)
        (prompt, List.replicate prompt.length false) index).1 := by
  unfold topPCall runSampler
  exact topPLoop_eq_refLoop p k temp u next cache0 prompt.length L tok stop
    hnext _ _ _ _ rfl (fun s r h1 h2 hr => htok s r h1 (by omega) hr)

theorem getD_set_of_length_le {α : Type} (l : List α) (i j : ℕ) (a d : α)
    (h : l.length ≤ i) : (l.set i a).getD j d = l.getD j d := by
  simp only [List.getD_eq_getElem?_getD, List.getElem?_set]
  by_cases hij : i = j
  · subst hij; simp [Nat.not_lt.mpr h, List.getElem?_eq_none h]
  · simp [hij]

theorem getD_replicate {α : Type} (n i : ℕ) (a d : α) :
    (List.replicate n a).getD i d = if i < n then a else d := by
  simp only [List.getD_eq_getElem?_getD, List.getElem?_replicate]
  by_cases h : i < n <;> simp [h]

theorem doneUpdate_nil (ds : List Bool) (ts : List ℕ) :
    doneUpdate [] ds ts = ds := by
  induction ds generalizing ts with
  | nil => rfl
  | cons d ds ih => simp [doneUpdate, ih]

/-! ## The value of a Top-P run without stop tokens, position by position -/

theorem topPLoop_no_stop_getD (p : ℚ) (k : Option ℕ) (temp : ℚ)
    (u : ℕ → ℕ → ℚ) (next : NextFn C Hn) (cache0 : C) (B : ℕ)
    (L : ℕ → List (List ℚ))
    (hnext : ∀ pr i, pr.length = B → (next pr cache0 i).1 = L i ∧
      (next pr cache0 i).2.2 = cache0) :
    ∀ (fuel : ℕ) (pr : PromptBuf) (step : ℕ), pr.length = B → ∀ (r j : ℕ),
      ((decodeLoop next (topPPolicy p k temp u) [] fuel
          ⟨pr, cache0, (), List.replicate B false⟩ step).prompt.getD r []).getD j 0 =
        if step ≤ j ∧ j < step + fuel ∧ r < B ∧ j < (pr.getD r []).length
        then topPSelect p k temp ((L j).getD r []) (u j r)
        else (pr.getD r []).getD j 0 := by
  intro fuel
  induction fuel with
  | zero =>
    intro pr step hB r j
    rw [if_neg (by omega)]
    rfl
  | succ fuel ih =>
    intro pr step hB r j
    have hstep : decodeStep next (topPPolicy p k temp u) []
        ⟨pr, cache0, (), List.replicate B false⟩ step =
        ⟨writeMasked step pr (List.replicate B false)
            ((List.range pr.length).map
              (fun r => topPSelect p k temp ((L step).getD r []) (u step r))),
          cache0, (), List.replicate B false⟩ := by
      simp only [decodeStep, topPPolicy]
      rw [(hnext pr step hB).1, (hnext pr step hB).2, doneUpdate_nil]
    rw [decodeLoop, hstep,
      ih (writeMasked step pr (List.replicate B false)
        ((List.range pr.length).map
          (fun r => topPSelect p k temp ((L step).getD r []) (u step r))))
        (step + 1) (by rwa [writeMasked_length]) r j]
    rw [writeMasked_getD, getD_replicate]
    have hrow : ∀ x : List ℕ,
        (if (if r < B then false else false) = true then pr.getD r []
          else (pr.getD r []).set step (x.getD r 0)) =
          (pr.getD r []).set step (x.getD r 0) := by
      intro x
      by_cases h : r < B <;> simp [h]
    rw [hrow]
    rw [getD_range_map, hB]
    by_cases hrB : r < B
    · rw [if_pos hrB]
      rw [List.length_set]
      by_cases hjs : j = step
      · subst hjs
        rw [if_neg (by omega)]
        by_cases hjl : j < (pr.getD r []).length
        · rw [if_pos (by omega), getD_set_self _ _ hjl]
        · rw [if_neg (by omega), getD_set_of_length_le _ _ _ _ _ (by omega)]
      · by_cases hcond : step + 1 ≤ j ∧ j < step + 1 + fuel ∧ r < B ∧
            j < (pr.getD r []).length
        · rw [if_pos hcond, if_pos (by omega)]
        · rw [if_neg hcond, if_neg (by omega), getD_set_ne _ _ (by omega)]
    · have hrow0 : pr.getD r [] = [] :=
        List.getD_eq_default _ _ (by omega)
      rw [if_neg hrB, hrow0]
      simp [hrB]

theorem topPCall_no_stop_getD (p : ℚ) (k : Option ℕ) (temp : ℚ)
    (u : ℕ → ℕ → ℚ) (next : NextFn C Hn) (cache0 : C)
    (L : ℕ → List (List ℚ)) (prompt : PromptBuf) (index : ℕ)
    (hnext : ∀ pr i, pr.length = prompt.length →
      (next pr cache0 i).1 = L i ∧ (next pr cache0 i).2.2 = cache0)
    (r j : ℕ) :
    ((topPCall p k temp u next prompt cache0 index []).getD r []).getD j 0 =
      if index ≤ j ∧ j < (prompt.headD []).length ∧ r < prompt.length ∧
          j < (prompt.getD r []).length
      then topPSelect p k temp ((L j).getD r []) (u j r)
      else (prompt.getD r []).getD j 0 := by
  unfold topPCall runSampler
  rw [topPLoop_no_stop_getD p k temp u next cache0 prompt.length L hnext
    _ _ _ rfl r j]
  by_cases hc : index ≤ j ∧ j < (prompt.headD []).length ∧
      r < prompt.length ∧ j < (prompt.getD r []).length
  · rw [if_pos (by omega), if_pos hc]
  · rw [if_neg (by omega), if_neg hc]

/-! ## The claims -/

/-- C1: For the Top-P sampler with `p = 0.1` over a 26-token vocabulary, if
`next_fn` returns a one-hot distribution (scaled overwhelmingly) selecting
the character of "sequentially" at each position (driven by the cache), then
starting from `index = 0` on a `[1, 12]` prompt filled entirely with the id
of 'z', the sampler's call returns exactly the token-id sequence of
"sequentially" — for every stream `u` of random draws. -/
theorem claim_C1 (u : ℕ → ℕ → ℚ) :
    topPCall (1/10) none 1 u (cacheNext 26 5) [List.replicate 12 25]
      [sequentiallyIds] 0 [] = [sequentiallyIds] := by
  have hks : ∀ s, s < 12 →
      topPKeptIds (1/10) none 1 (oneHotLogits 26 (sequentiallyIds.getD s 0)) =
        [sequentiallyIds.getD s 0] := by decide
  have htok : ∀ s r, 0 ≤ s →
      s < (([List.replicate 12 25] : PromptBuf).headD []).length →
      r < ([List.replicate 12 25] : PromptBuf).length →
      topPSelect (1/10) none 1
        (([oneHotLogits 26 (sequentiallyIds.getD s 0)] : List (List ℚ)).getD r [])
        (u s r) = sequentiallyIds.getD s 0 := by
    intro s r h1 h2 hr
    have hr0 : r = 0 := by
      simp only [List.length_cons, List.length_nil] at hr
      omega
    subst hr0
    exact topPSelect_singleton _ _ _ _ _ _ (hks s (by simpa using h2))
  rw [topPCall_eq_refLoop (1/10) none 1 u (cacheNext 26 5) [sequentiallyIds]
    (fun i => [oneHotLogits 26 (sequentiallyIds.getD i 0)])
    (fun s _ => sequentiallyIds.getD s 0) [] [List.replicate 12 25] 0
    (fun pr i _ => ⟨rfl, rfl⟩) htok]
  decide

theorem map_const_of_length_one {α β : Type} (l : List α) (c : β)
    (h : l.length = 1) : l.map (fun _ => c) = [c] := by
  cases l with
  | nil => simp at h
  | cons x xs =>
    cases xs with
    | nil => rfl
    | cons y ys => simp at h

/-- C2: for every batch row, once the decoding loop marks the row done
(because the token it wrote at some step `s` belonged to `stop_token_ids`),
the row stays done at every later step, and in the returned buffer every
position strictly after `s` equals the pre-call prompt contents.  A row that
is done after `m` loop iterations became done at step `index + m - 1` at the
latest, so the positions strictly after that step are those `>= index + m`.
The two concrete examples of the tests are also checked: with the
"sequentially" one-hot next-fn and `stop_token_ids = {'t'}`, an all-'z'
prompt yields "sequentzzzzz" (Top-P, for every stream of random draws) and
an all-'s' prompt yields "sequentsssss" (Contrastive). -/
theorem claim_C2 :
    (∀ (C Hn H : Type) (next : NextFn C Hn) (policy : Policy C Hn H)
      (stop : List ℕ) (prompt : PromptBuf) (cache : C) (hidden : H)
      (index r m : ℕ),
      (decodeLoop next policy stop m
          ⟨prompt, cache, hidden, List.replicate prompt.length false⟩
          index).done.getD r false = true →
      (∀ m2, m ≤ m2 →
        (decodeLoop next policy stop m2
          ⟨prompt, cache, hidden, List.replicate prompt.length false⟩
          index).done.getD r false = true) ∧
      (∀ j, index + m ≤ j →
        ((runSampler next policy prompt cache hidden index stop).getD r []).getD j 0 =
          (prompt.getD r []).getD j 0)) ∧
    (∀ u : ℕ → ℕ → ℚ,
      topPCall (1/10) none 1 u (cacheNext 26 5) [List.replicate 12 25]
        [sequentiallyIds] 0 [19] =
        [[18, 4, 16, 20, 4, 13, 19, 25, 25, 25, 25, 25]]) ∧
    contrastiveCall 5 (2/10) 1 (cacheNext 26 3) [List.replicate 12 18]
      [sequentiallyIds ++ [24]] [List.replicate 12 (List.replicate 3 1)] 0
      [19] = [[18, 4, 16, 20, 4, 13, 19, 18, 18, 18, 18, 18]] := by
  refine ⟨?_, ?_, ?_⟩
  · intro C Hn H next policy stop prompt cache hidden index r m hdone
    constructor
    · intro m2 hm2
      have hsplit : m2 = m + (m2 - m) := by omega
      rw [hsplit, decodeLoop_add]
      exact decodeLoop_done_mono _ _ _ _ _ _ _ hdone
    · intro j hj
      show ((decodeLoop next policy stop ((prompt.headD []).length - index)
        ⟨prompt, cache, hidden, List.replicate prompt.length false⟩
        index).prompt.getD r []).getD j 0 = _
      by_cases hc : m ≤ (prompt.headD []).length - index
      · have hsplit : (prompt.headD []).length - index =
            m + ((prompt.headD []).length - index - m) := by omega
        rw [hsplit, decodeLoop_add,
          decodeLoop_done_frozen _ _ _ _ _ _ _ hdone,
          decodeLoop_frame _ _ _ _ _ _ _ _ (Or.inr hj)]
      · rw [decodeLoop_frame _ _ _ _ _ _ _ _ (Or.inr (by omega))]
  · intro u
    have hks : ∀ s, s < 12 →
        topPKeptIds (1/10) none 1 (oneHotLogits 26 (sequentiallyIds.getD s 0)) =
          [sequentiallyIds.getD s 0] := by decide
    have htok : ∀ s r, 0 ≤ s →
        s < (([List.replicate 12 25] : PromptBuf).headD []).length →
        r < ([List.replicate 12 25] : PromptBuf).length →
        topPSelect (1/10) none 1
          (([oneHotLogits 26 (sequentiallyIds.getD s 0)] : List (List ℚ)).getD r [])
          (u s r) = sequentiallyIds.getD s 0 := by
      intro s r h1 h2 hr
      have hr0 : r = 0 := by
        simp only [List.length_cons, List.length_nil] at hr
        omega
      subst hr0
      exact topPSelect_singleton _ _ _ _ _ _ (hks s (by simpa using h2))
    rw [topPCall_eq_refLoop (1/10) none 1 u (cacheNext 26 5) [sequentiallyIds]
      (fun i => [oneHotLogits 26 (sequentiallyIds.getD i 0)])
      (fun s _ => sequentiallyIds.getD s 0) [19] [List.replicate 12 25] 0
      (fun pr i _ => ⟨rfl, rfl⟩) htok]
    decide
  · decide

/-- C3: for every prompt, index, cache, hidden state, stop set and policy (in
particular for both samplers with any seed), the buffer returned by a
sampler call has exactly the same shape as the input prompt — same batch
size and same per-row lengths — and every position outside `[index, length)`
(both those strictly before `index` and those at or beyond `length`) equals
its value in the input prompt.  The two stateless test scenarios are also
checked: starting at `index = 5` on an all-'z' prompt with a next-fn
favoring token 0 gives "zzzzzaaaaaaa" for the Top-P sampler (every stream of
draws) and for the Contrastive sampler. -/
theorem claim_C3 :
    (∀ (C Hn H : Type) (next : NextFn C Hn) (policy : Policy C Hn H)
      (prompt : PromptBuf) (cache : C) (hidden : H) (index : ℕ)
      (stop : List ℕ),
      (runSampler next policy prompt cache hidden index stop).length =
        prompt.length ∧
      (∀ r, ((runSampler next policy prompt cache hidden index stop).getD r []).length =
        (prompt.getD r []).length) ∧
      (∀ r j, j < index ∨ (prompt.headD []).length ≤ j →
        ((runSampler next policy prompt cache hidden index stop).getD r []).getD j 0 =
          (prompt.getD r []).getD j 0)) ∧
    (∀ u : ℕ → ℕ → ℚ,
      topPCall (1/10) none 1 u (constHotNext 26 0 5) [List.replicate 12 25]
        () 5 [] = [List.replicate 5 25 ++ List.replicate 7 0]) ∧
    contrastiveCall 5 (2/10) 1 (constHotNext 26 0 3) [List.replicate 12 25]
      () [List.replicate 12 (List.replicate 3 1)] 5 [] =
      [List.replicate 5 25 ++ List.replicate 7 0] := by
  refine ⟨?_, ?_, ?_⟩
  · intro C Hn H next policy prompt cache hidden index stop
    refine ⟨?_, ?_, ?_⟩
    · unfold runSampler
      exact decodeLoop_prompt_length _ _ _ _ _ _
    · intro r
      unfold runSampler
      exact decodeLoop_row_length _ _ _ _ _ _ _
    · intro r j hj
      unfold runSampler
      exact decodeLoop_frame _ _ _ _ _ _ _ _ (by omega)
  · intro u
    have hks : topPKeptIds (1/10) none 1 (oneHotLogits 26 0) = [0] := by
      decide
    have htok : ∀ s r, 5 ≤ s →
        s < (([List.replicate 12 25] : PromptBuf).headD []).length →
        r < ([List.replicate 12 25] : PromptBuf).length →
        topPSelect (1/10) none 1
          (([oneHotLogits 26 0] : List (List ℚ)).getD r []) (u s r) = 0 := by
      intro s r h1 h2 hr
      have hr0 : r = 0 := by
        simp only [List.length_cons, List.length_nil] at hr
        omega
      subst hr0
      exact topPSelect_singleton _ _ _ _ _ _ hks
    rw [topPCall_eq_refLoop (1/10) none 1 u (constHotNext 26 0 5) ()
      (fun _ => [oneHotLogits 26 0]) (fun _ _ => 0) [] [List.replicate 12 25]
      5 (fun pr i h => ⟨map_const_of_length_one pr _ (by simpa using h), rfl⟩)
      htok]
    decide
  · decide

/-- C8: constructing a Top-P sampler with `p` outside `(0, 1]` or with a
non-positive `k` is rejected by the construction-time validation with a
descriptive error (the validation is a function of the construction
arguments alone, so it cannot be deferred to call time), and construction
with valid parameters — `p = 0.1`, `p = 1`, `p = 2/26` — succeeds. -/
theorem claim_C8 :
    (∀ (p : ℚ) (k : Option ℤ),
      topPValidate p k = Except.ok () ↔
        ((0 < p ∧ p ≤ 1) ∧ ∀ kv, k = some kv → 0 < kv)) ∧
    topPValidate (1/10) none = Except.ok () ∧
    topPValidate 1 none = Except.ok () ∧
    topPValidate (2/26) none = Except.ok () ∧
    topPValidate (1/10) (some 5) = Except.ok () ∧
    (∃ e, topPValidate 0 none = Except.error e) ∧
    (∃ e, topPValidate 2 none = Except.error e) ∧
    (∃ e, topPValidate (1/2) (some 0) = Except.error e) ∧
    (∃ e, topPValidate (1/2) (some (-3)) = Except.error e) := by
  refine ⟨?_, rfl, rfl, rfl, rfl, ⟨_, rfl⟩, ⟨_, rfl⟩, ⟨_, rfl⟩, ⟨_, rfl⟩⟩
  intro p k
  constructor
  · intro h
    unfold topPValidate at h
    by_cases h1 : p ≤ 0 ∨ 1 < p
    · rw [if_pos h1] at h
      exact absurd h (by simp)
    · rw [if_neg h1] at h
      push_neg at h1
      refine ⟨⟨h1.1, h1.2⟩, ?_⟩
      intro kv hkv
      by_cases h2 : kNonPositive k = true
      · rw [if_pos h2] at h
        exact absurd h (by simp)
      · subst hkv
        unfold kNonPositive at h2
        exact not_le.mp (by simpa using h2)
  · rintro ⟨⟨hp0, hp1⟩, hk⟩
    unfold topPValidate
    rw [if_neg (by push_neg; exact ⟨hp0, hp1⟩)]
    have hkn : kNonPositive k = false := by
      unfold kNonPositive
      cases hk2 : k with
      | none => rfl
      | some kv => exact decide_eq_false (not_le.mpr (hk kv hk2))
    rw [hkn]
    rfl

/-- C9: `RandomSwap.__init__` raises its `ValueError` exactly when at least
two of `skip_list`, `skip_fn`, `skip_py_fn` are non-`None` (given an
otherwise valid dtype and `max_swaps`); in particular constructing with none
of the three provided succeeds, even though the raised message reads
"Exactly one of skip_list, skip_fn, skip_py_fn must be provided.". -/
theorem claim_C9 {τ : Type} (dtype : SwapDType) (maxSwaps : Option ℤ)
    (a : Option (List τ)) (b c : Option (τ → Bool))
    (hdt : dtype = SwapDType.int ∨ dtype = SwapDType.str)
    (hms : ∀ m, maxSwaps = some m → 0 ≤ m) :
    ((∃ e, randomSwapInit dtype maxSwaps a b c = Except.error e) ↔
      2 ≤ (if a.isSome then 1 else 0) + (if b.isSome then 1 else 0) +
        (if c.isSome then 1 else 0)) ∧
    randomSwapInit (τ := τ) dtype maxSwaps none none none = Except.ok () ∧
    randomSwapInit dtype maxSwaps (some ([] : List τ))
      (some (fun _ => true)) none = Except.error
      "Exactly one of skip_list, skip_fn, skip_py_fn must be provided." := by
  have hd : ¬¬(dtype = SwapDType.int ∨ dtype = SwapDType.str) :=
    not_not_intro hdt
  have hb : maxSwapsNegative maxSwaps = false := by
    unfold maxSwapsNegative
    cases hms2 : maxSwaps with
    | none => rfl
    | some m => simpa using hms m hms2
  have hred : ∀ (x : Option (List τ)) (y z : Option (τ → Bool)),
      randomSwapInit dtype maxSwaps x y z =
        (if countNoneSkips x y z < 2 then
          Except.error
            "Exactly one of skip_list, skip_fn, skip_py_fn must be provided."
        else Except.ok ()) := by
    intro x y z
    unfold randomSwapInit
    rw [if_neg hd, hb]
    simp
  refine ⟨?_, ?_, ?_⟩
  · rw [hred]
    have hcnt : countNoneSkips a b c < 2 ↔
        2 ≤ (if a.isSome then 1 else 0) + (if b.isSome then 1 else 0) +
          (if c.isSome then 1 else 0) := by
      rcases a <;> rcases b <;> rcases c <;> simp [countNoneSkips]
    rw [← hcnt]
    by_cases hcount : countNoneSkips a b c < 2
    · simp [hcount]
    · simp [hcount]
  · rw [hred]
    simp [countNoneSkips]
  · rw [hred]
    simp [countNoneSkips]

/-! ## RandomSwap rows are permutations of the input rows -/

theorem swapOnce_perm {τ : Type} (row : List τ) (i j : ℕ) :
    (swapOnce row i j).Perm row := by
  classical
  unfold swapOnce
  split
  case h_2 => exact List.Perm.refl _
  case h_1 a b hi hj =>
    obtain ⟨hil, hia⟩ := List.getElem?_eq_some.mp hi
    obtain ⟨hjl, hjb⟩ := List.getElem?_eq_some.mp hj
    rw [List.perm_iff_count]
    intro x
    rw [List.count_set _ _ _ _ (by simpa using hjl),
      List.count_set _ _ _ _ hil]
    by_cases hij : i = j
    · subst hij
      have hab : a = b := by rw [← hia, ← hjb]
      subst hab
      rw [List.getElem_set_self (by simpa using hil)]
      subst hia
      have h1 : row[i] = x → 1 ≤ List.count x row :=
        fun hax => List.count_pos_iff.mpr (hax ▸ List.getElem_mem hil)
      by_cases hax : (row[i] == x) = true
      · have hc1 := h1 (by simpa using hax)
        simp [hax]
        omega
      · simp [hax]
    · rw [List.getElem_set_ne hij (by simpa using hjl)]
      subst hia
      subst hjb
      have h1 : row[i] = x → 1 ≤ List.count x row :=
        fun hax => List.count_pos_iff.mpr (hax ▸ List.getElem_mem hil)
      by_cases hax : (row[i] == x) = true
      · have hc1 := h1 (by simpa using hax)
        by_cases hbx : (row[j] == x) = true <;> simp [hax, hbx] <;> omega
      · by_cases hbx : (row[j] == x) = true <;> simp [hax, hbx]

theorem swapIterFrom_perm {τ : Type} (positions : List ℕ)
    (draws : ℕ → ℕ × ℕ) (t n : ℕ) (row : List τ) :
    (swapIterFrom positions draws t n row).Perm row := by
  induction n generalizing t row with
  | zero => exact List.Perm.refl _
  | succ n ih =>
    rw [swapIterFrom]
    exact (ih _ _).trans (swapOnce_perm _ _ _)

/-- C10: for every input batch and every configuration (skip mechanism,
`max_swaps`, and the random draws standing for `rate`-driven binomial
sampling and the seeded index draws), each row of the output of
`RandomSwap.call` is a permutation of the corresponding input row — in
particular it has the same length and the same multiset of tokens, since
each of the finitely many updates only exchanges the tokens at two positions
of the same row. -/
theorem claim_C10 {τ : Type} [DecidableEq τ] (skip : SkipSpec τ)
    (maxSwaps : Option ℤ) (numSelOracle : ℕ → ℕ)
    (drawOracle : ℕ → ℕ → ℕ × ℕ) (inputs : List (List τ)) :
    List.Forall₂ (fun out inp => out.Perm inp)
      (randomSwapCall skip maxSwaps numSelOracle drawOracle inputs) inputs := by
  rw [List.forall₂_iff_get]
  constructor
  · simp [randomSwapCall]
  · intro i h1 h2
    unfold randomSwapCall at h1 ⊢
    simp only [List.get_eq_getElem, List.getElem_map,
      List.getElem_range]
    have : inputs.getD i [] = inputs[i] := List.getD_eq_getElem _ _ h2
    rw [this]
    unfold randomSwapRow
    exact swapIterFrom_perm _ _ _ _ _

/-- Witness for C2: in the concrete Top-P early-stopping run, row 0 is done
after 7 iterations (step 6 wrote 't'), and position 8 of the returned buffer
equals the pre-call prompt value. -/
theorem claim_C2_witness :
    ((runSampler (cacheNext 26 5) (topPPolicy (1/10) none 1 (fun _ _ => 1/2))
      [List.replicate 12 25] [sequentiallyIds] () 0 [19]).getD 0 []).getD 8 0 =
      (([List.replicate 12 25] : PromptBuf).getD 0 []).getD 8 0 :=
  (claim_C2.1 (List (List ℕ)) (List (List ℚ)) Unit (cacheNext 26 5)
    (topPPolicy (1/10) none 1 (fun _ _ => 1/2)) [19] [List.replicate 12 25]
    [sequentiallyIds] () 0 0 7 (by decide)).2 8 (by decide)

/-- Witness for C3: in the concrete stateless Top-P run starting at index 5,
position 2 of the returned buffer equals the pre-call prompt value. -/
theorem claim_C3_witness :
    ((runSampler (cacheNext 26 5) (topPPolicy (1/10) none 1 (fun _ _ => 1/2))
      [List.replicate 12 25] [sequentiallyIds] () 5 []).getD 0 []).getD 2 0 =
      (([List.replicate 12 25] : PromptBuf).getD 0 []).getD 2 0 :=
  ((claim_C3.1 (List (List ℕ)) (List (List ℚ)) Unit (cacheNext 26 5)
    (topPPolicy (1/10) none 1 (fun _ _ => 1/2)) [List.replicate 12 25]
    [sequentiallyIds] () 5 []).2.2) 0 2 (Or.inl (by decide))

/-- Witness for C8: the validation accepts the configuration
`p = 1/10, k = 5`. -/
theorem claim_C8_witness : topPValidate (1/10) (some 5) = Except.ok () :=
  (claim_C8.1 (1/10) (some 5)).mpr
    ⟨⟨by norm_num, by norm_num⟩, by intro kv hkv; cases hkv; norm_num⟩

/-- Witness for C9: constructing a RandomSwap over ℕ tokens with integer
dtype, no `max_swaps` and none of the three skip arguments succeeds. -/
theorem claim_C9_witness :
    randomSwapInit (τ := ℕ) SwapDType.int none none none none =
      Except.ok () :=
  (claim_C9 SwapDType.int none none none none (Or.inl rfl)
    (fun _ h => nomatch h)).2.1

/-! ## Lemmas for the contrastive selection (claim C5) -/

theorem argmaxIdx_lt_length (l : List ℚ) (h : l ≠ []) :
    argmaxIdx l < l.length := by
  induction l with
  | nil => simp at h
  | cons x xs ih =>
    cases xs with
    | nil => simp [argmaxIdx]
    | cons y ys =>
      show (if (y :: ys).getD (argmaxIdx (y :: ys)) 0 ≤ x then 0
        else argmaxIdx (y :: ys) + 1) < _
      by_cases hc : (y :: ys).getD (argmaxIdx (y :: ys)) 0 ≤ x
      · rw [if_pos hc]
        simp
      · rw [if_neg hc]
        have := ih (by simp)
        simp only [List.length_cons] at this ⊢
        omega

theorem argmaxIdx_getD_le (l : List ℚ) (i : ℕ) (hi : i < l.length) :
    l.getD i 0 ≤ l.getD (argmaxIdx l) 0 := by
  induction l generalizing i with
  | nil => simp at hi
  | cons x xs ih =>
    cases xs with
    | nil =>
      have h0 : i = 0 := by
        simp only [List.length_cons, List.length_nil] at hi
        omega
      subst h0
      simp [argmaxIdx]
    | cons y ys =>
      have hshow : argmaxIdx (x :: y :: ys) =
          (if (y :: ys).getD (argmaxIdx (y :: ys)) 0 ≤ x then 0
            else argmaxIdx (y :: ys) + 1) := rfl
      by_cases hc : (y :: ys).getD (argmaxIdx (y :: ys)) 0 ≤ x
      · rw [hshow, if_pos hc]
        cases i with
        | zero => simp
        | succ i2 =>
          have h2 := ih i2 (by simpa using hi)
          calc (x :: y :: ys).getD (i2 + 1) 0
              = (y :: ys).getD i2 0 := rfl
            _ ≤ (y :: ys).getD (argmaxIdx (y :: ys)) 0 := h2
            _ ≤ x := hc
            _ = (x :: y :: ys).getD 0 0 := rfl
      · rw [hshow, if_neg hc]
        cases i with
        | zero =>
          show x ≤ (y :: ys).getD (argmaxIdx (y :: ys)) 0
          exact le_of_lt (not_le.mp hc)
        | succ i2 => exact ih i2 (by simpa using hi)

theorem le_foldl_max (l : List ℚ) (a : ℚ) : a ≤ l.foldl max a := by
  induction l generalizing a with
  | nil => simp
  | cons x xs ih =>
    rw [List.foldl_cons]
    exact le_trans (le_max_left a x) (ih (max a x))

theorem mem_le_foldl_max (l : List ℚ) (a x : ℚ) (hx : x ∈ l) :
    x ≤ l.foldl max a := by
  induction l generalizing a with
  | nil => simp at hx
  | cons y ys ih =>
    rw [List.foldl_cons]
    rcases List.mem_cons.mp hx with h | h
    · subst h
      exact le_trans (le_max_right a x) (le_foldl_max ys (max a x))
    · exact ih (max a y) h

theorem le_maxSim (s : List ℚ) (priors : List (List ℚ)) (t : ℕ)
    (ht : t < priors.length) :
    simQ s (priors.getD t []) ≤ maxSim s priors := by
  cases priors with
  | nil => simp at ht
  | cons v vs =>
    rw [maxSim]
    cases t with
    | zero =>
      show simQ s v ≤ _
      exact le_foldl_max _ _
    | succ t2 =>
      show simQ s (vs.getD t2 []) ≤ _
      have hmem : vs.getD t2 [] ∈ vs := by
        rw [List.getD_eq_getElem _ _ (by simpa using ht)]
        exact List.getElem_mem _
      exact mem_le_foldl_max _ _ _ (List.mem_map_of_mem _ hmem)

theorem dotQ_self_nonneg (v : List ℚ) : 0 ≤ dotQ v v := by
  induction v with
  | nil => simp [dotQ]
  | cons x xs ih =>
    have hc : dotQ (x :: xs) (x :: xs) = x * x + dotQ xs xs := by
      simp [dotQ]
    rw [hc]
    nlinarith [mul_self_nonneg x]

theorem simQ_self (v : List ℚ) (h : dotQ v v ≠ 0) : simQ v v = 1 := by
  unfold simQ
  rw [abs_of_nonneg (dotQ_self_nonneg v)]
  rw [div_self (mul_ne_zero h h)]

theorem softmax_length (l : List ℚ) : (softmax l).length = l.length := by
  simp [softmax]

theorem sortIdx_perm (xs : List ℚ) :
    (sortIdx xs).Perm (List.range xs.length) :=
  List.perm_insertionSort _ _

theorem sortIdx_length (xs : List ℚ) : (sortIdx xs).length = xs.length := by
  rw [(sortIdx_perm xs).length_eq, List.length_range]

theorem sortIdx_nodup (xs : List ℚ) : (sortIdx xs).Nodup :=
  ((sortIdx_perm xs).nodup_iff).mpr (List.nodup_range _)

theorem sortIdx_sorted (xs : List ℚ) :
    List.Sorted (sortRel xs) (sortIdx xs) :=
  List.sorted_insertionSort _ _

theorem sortIdx_mem (xs : List ℚ) (i : ℕ) :
    i ∈ sortIdx xs ↔ i < xs.length := by
  rw [(sortIdx_perm xs).mem_iff, List.mem_range]

/-- C5 counterexample: with `alpha = 1`, `k = 5`, a candidate (token 7) that
has the strictly highest raw logit and whose lookahead-induced hidden state
exactly matches the prior position's state (cosine similarity 1) IS selected
when every other candidate's state is merely parallel to the prior state
(also similarity 1, but not an exact match): all scores tie and the argmax
tie-break picks the first candidate.  This refutes "that candidate is never
selected". -/
theorem claim_C5_counterexample :
    ((sortIdx ((List.range 26).map
        (fun i => if i = 7 then (1000000000 : ℚ) else 1))).take 5 = [7, 0, 1, 2, 3]) ∧
    ([[(1:ℚ), 1, 1], [2, 2, 2], [2, 2, 2], [2, 2, 2], [2, 2, 2]].getD 0 [] =
      ([[(1:ℚ), 1, 1]] : List (List ℚ)).getD 0 []) ∧
    (∀ c2, c2 < 5 → c2 ≠ 0 →
      [[(1:ℚ), 1, 1], [2, 2, 2], [2, 2, 2], [2, 2, 2], [2, 2, 2]].getD c2 [] ≠
        ([[(1:ℚ), 1, 1]] : List (List ℚ)).getD 0 []) ∧
    contrastiveSelectStep 5 1 1
      ((List.range 26).map (fun i => if i = 7 then (1000000000 : ℚ) else 1))
      [[(1:ℚ), 1, 1], [2, 2, 2], [2, 2, 2], [2, 2, 2], [2, 2, 2]]
      [[(1:ℚ), 1, 1]] = 7 := by
  refine ⟨by decide, by decide, by decide, by decide⟩

/-- C5 (amended): for the Contrastive selection with `alpha = 1` and top-k
candidates taken from the scaled logits: if a candidate's lookahead-induced
hidden state exactly matches some prior position's hidden state for its row
(so its degeneration penalty is the maximal similarity 1), and some other
top-k candidate's maximal similarity to the prior states is strictly below
1, then the matching candidate is never selected at that step — even when it
has the strictly highest raw logit (the hypotheses only require it to be
among the top-k candidates, which a strictly highest logit guarantees). -/
theorem claim_C5 (k : ℕ) (temperature : ℚ) (logits : List ℚ)
    (candStates priors : List (List ℚ)) (c islot jslot t : ℕ)
    (hlen : candStates.length =
      ((sortIdx (logits.map (fun x => x / temperature))).take k).length)
    (hislot : islot <
      ((sortIdx (logits.map (fun x => x / temperature))).take k).length)
    (hc : ((sortIdx (logits.map (fun x => x / temperature))).take k).getD islot 0 = c)
    (ht : t < priors.length)
    (hmatch : priors.getD t [] = candStates.getD islot [])
    (hnz : dotQ (candStates.getD islot []) (candStates.getD islot []) ≠ 0)
    (hjslot : jslot <
      ((sortIdx (logits.map (fun x => x / temperature))).take k).length)
    (hj : maxSim (candStates.getD jslot []) priors < 1) :
    contrastiveSelectStep k 1 temperature logits candStates priors ≠ c := by
  intro habs
  have hsel : contrastiveSelectStep k 1 temperature logits candStates priors =
      ((sortIdx (logits.map (fun x => x / temperature))).take k).getD
        (argmaxIdx (contrastiveScores 1
          (softmax (((sortIdx (logits.map (fun x => x / temperature))).take k).map
            (fun i => (logits.map (fun x => x / temperature)).getD i 0)))
          candStates priors)) 0 := rfl
  set cands := (sortIdx (logits.map (fun x => x / temperature))).take k with hcands
  set probs := softmax (cands.map
    (fun i => (logits.map (fun x => x / temperature)).getD i 0)) with hprobs
  set scores := contrastiveScores 1 probs candStates priors with hscores
  have hprobslen : probs.length = cands.length := by
    rw [hprobs, softmax_length, List.length_map]
  have hscoreslen : scores.length = cands.length := by
    rw [hscores]
    unfold contrastiveScores
    rw [List.length_zipWith, hprobslen, ← hlen, min_self]
  have hscore_at : ∀ s2, s2 < cands.length →
      scores.getD s2 0 = -maxSim (candStates.getD s2 []) priors := by
    intro s2 hs2
    rw [hscores]
    unfold contrastiveScores
    rw [getD_zipWith _ _ _ _ 0 [] 0 (by omega) (by omega)]
    ring
  have hpen_i : 1 ≤ maxSim (candStates.getD islot []) priors := by
    have h1 := le_maxSim (candStates.getD islot []) priors t ht
    rw [hmatch, simQ_self _ hnz] at h1
    exact h1
  have hchosen_lt : argmaxIdx scores < cands.length := by
    rw [← hscoreslen]
    exact argmaxIdx_lt_length _ (by
      intro h0
      rw [h0] at hscoreslen
      simp at hscoreslen
      omega)
  have harg := argmaxIdx_getD_le scores jslot (by omega)
  have hne : argmaxIdx scores ≠ islot := by
    intro heq
    rw [heq, hscore_at islot (by omega), hscore_at jslot (by omega)] at harg
    linarith
  have hgoal : cands.getD (argmaxIdx scores) 0 = cands.getD islot 0 := by
    rw [← hc] at habs
    rw [← habs, hsel]
  have hnodup : cands.Nodup :=
    ((sortIdx_nodup _).sublist (List.take_sublist _ _) : cands.Nodup)
  apply hne
  have h1 : cands[argmaxIdx scores] = cands[islot] := by
    rw [← List.getD_eq_getElem cands 0 hchosen_lt,
      ← List.getD_eq_getElem cands 0 hislot]
    exact hgoal
  exact (List.Nodup.getElem_inj_iff hnodup).mp h1

/-! ## Positivity and structure lemmas for the Top-P pipeline -/

theorem pow2_pos (k : ℤ) : 0 < pow2 k := by
  unfold pow2
  by_cases h : 0 ≤ k
  · rw [if_pos h]
    positivity
  · rw [if_neg h]
    positivity

theorem expQ_pos (x : ℚ) : 0 < expQ x := by
  unfold expQ
  have h1 : 0 < pow2 ⌊x / 100000000⌋ := pow2_pos _
  have h2 : (⌊x / 100000000⌋ : ℚ) ≤ x / 100000000 := Int.floor_le _
  nlinarith

theorem getD_map_lt {α β : Type} (f : α → β) (l : List α) (i : ℕ)
    (d : β) (d2 : α) (h : i < l.length) :
    (l.map f).getD i d = f (l.getD i d2) := by
  rw [List.getD_eq_getElem _ _ (by simpa using h), List.getD_eq_getElem _ _ h]
  simp

theorem softmax_getD_pos (l : List ℚ) (i : ℕ) (h : i < l.length) :
    0 < (softmax l).getD i 0 := by
  unfold softmax
  have hw : 0 < (l.map expQ).sum := by
    apply List.sum_pos
    · intro x hx
      obtain ⟨y, _, hy⟩ := List.mem_map.mp hx
      exact hy ▸ expQ_pos y
    · intro h0
      rw [List.map_eq_nil_iff] at h0
      subst h0
      simp at h
  rw [getD_map_lt _ _ _ _ 0 (by simpa using h)]
  have := expQ_pos ((l.map expQ).getD i 0)
  exact div_pos (by
    rw [getD_map_lt _ _ _ _ 0 h]
    exact expQ_pos _) hw

theorem softmax_getD_nonneg (l : List ℚ) (i : ℕ) :
    0 ≤ (softmax l).getD i 0 := by
  by_cases h : i < l.length
  · exact le_of_lt (softmax_getD_pos l i h)
  · rw [List.getD_eq_default]
    rw [softmax_length]
    omega

theorem maskIdxFrom_length (keep : List ℕ) (i0 : ℕ) (l : List ℚ) :
    (maskIdxFrom keep i0 l).length = l.length := by
  induction l generalizing i0 with
  | nil => rfl
  | cons q rest ih => simp [maskIdxFrom, ih]

theorem maskIdxFrom_getD (keep : List ℕ) (i0 j : ℕ) (l : List ℚ) :
    (maskIdxFrom keep i0 l).getD j 0 =
      if (i0 + j) ∈ keep then l.getD j 0 else 0 := by
  induction l generalizing i0 j with
  | nil =>
    show (0 : ℚ) = _
    split <;> rfl
  | cons q rest ih =>
    cases j with
    | zero =>
      show (if i0 ∈ keep then q else 0) = _
      rw [Nat.add_zero]
      rfl
    | succ j2 =>
      show (maskIdxFrom keep (i0 + 1) rest).getD j2 0 = _
      rw [ih (i0 + 1) j2]
      have : i0 + 1 + j2 = i0 + (j2 + 1) := by omega
      rw [this]
      rfl

theorem maskedProbs_length (k : Option ℕ) (temp : ℚ) (logits : List ℚ) :
    (maskedProbs k temp logits).length = logits.length := by
  unfold maskedProbs
  cases k with
  | none => rw [softmax_length, List.length_map]
  | some kk => rw [maskIdxFrom_length, softmax_length, List.length_map]

theorem maskedProbs_nonneg (k : Option ℕ) (temp : ℚ) (logits : List ℚ)
    (i : ℕ) : 0 ≤ (maskedProbs k temp logits).getD i 0 := by
  unfold maskedProbs
  cases k with
  | none => exact softmax_getD_nonneg _ _
  | some kk =>
    rw [maskIdxFrom_getD]
    split
    · exact softmax_getD_nonneg _ _
    · exact le_refl 0

theorem maskedProbs_pos_mem (kk : ℕ) (temp : ℚ) (logits : List ℚ) (x : ℕ)
    (h : 0 < (maskedProbs (some kk) temp logits).getD x 0) :
    x ∈ (sortIdx (logits.map (fun y => y / temp))).take kk := by
  unfold maskedProbs at h
  rw [maskIdxFrom_getD, Nat.zero_add] at h
  by_cases hm : x ∈ (sortIdx (logits.map (fun y => y / temp))).take kk
  · exact hm
  · rw [if_neg hm] at h
    exact absurd h (by norm_num)

theorem sortRel_ge (xs : List ℚ) (i j : ℕ) (h : sortRel xs i j) :
    xs.getD j 0 ≤ xs.getD i 0 := by
  rcases h with h | ⟨h, _⟩
  · exact le_of_lt h
  · exact le_of_eq h.symm

theorem sortIdx_head_ge (xs : List ℚ) (x : ℕ) (hx : x ∈ sortIdx xs) :
    xs.getD x 0 ≤ xs.getD ((sortIdx xs).headD 0) 0 := by
  cases hs : sortIdx xs with
  | nil =>
    rw [hs] at hx
    simp at hx
  | cons h0 tl =>
    rw [hs] at hx
    rcases List.mem_cons.mp hx with h | h
    · subst h
      exact le_refl _
    · have hsorted := sortIdx_sorted xs
      rw [hs] at hsorted
      exact sortRel_ge _ _ _ (List.rel_of_sorted_cons hsorted x h)

theorem drawIdx_pos (t : ℚ) (l : List ℚ) (hnn : ∀ x ∈ l, 0 ≤ x)
    (h0 : 0 ≤ t) (hs : t < l.sum) : 0 < l.getD (drawIdx t l) 0 := by
  induction l generalizing t with
  | nil =>
    rw [List.sum_nil] at hs
    linarith
  | cons q rest ih =>
    cases rest with
    | nil =>
      show 0 < (q :: []).getD 0 0
      rw [List.sum_cons, List.sum_nil] at hs
      show 0 < q
      linarith
    | cons q2 rest2 =>
      show 0 < (q :: q2 :: rest2).getD
        (if t < q then 0 else drawIdx (t - q) (q2 :: rest2) + 1) 0
      by_cases hb : t < q
      · rw [if_pos hb]
        show 0 < q
        linarith
      · rw [if_neg hb]
        show 0 < (q2 :: rest2).getD (drawIdx (t - q) (q2 :: rest2)) 0
        apply ih
        · intro x hx
          exact hnn x (List.mem_cons_of_mem q hx)
        · linarith [not_lt.mp hb]
        · rw [List.sum_cons] at hs
          linarith

/-! ## Sorting is invariant under positive temperature scaling -/

theorem orderedInsert_congr {α : Type} (r1 r2 : α → α → Prop)
    [DecidableRel r1] [DecidableRel r2]
    (hequiv : ∀ a b, r1 a b ↔ r2 a b) (a : α) (l : List α) :
    List.orderedInsert r1 a l = List.orderedInsert r2 a l := by
  induction l with
  | nil => rfl
  | cons b t ih =>
    show (if r1 a b then a :: b :: t else b :: List.orderedInsert r1 a t) =
      (if r2 a b then a :: b :: t else b :: List.orderedInsert r2 a t)
    by_cases h : r1 a b
    · rw [if_pos h, if_pos ((hequiv a b).mp h)]
    · rw [if_neg h, if_neg (fun h2 => h ((hequiv a b).mpr h2)), ih]

theorem insertionSort_congr {α : Type} (r1 r2 : α → α → Prop)
    [DecidableRel r1] [DecidableRel r2]
    (hequiv : ∀ a b, r1 a b ↔ r2 a b) (l : List α) :
    List.insertionSort r1 l = List.insertionSort r2 l := by
  induction l with
  | nil => rfl
  | cons a t ih =>
    show List.orderedInsert r1 a (List.insertionSort r1 t) =
      List.orderedInsert r2 a (List.insertionSort r2 t)
    rw [ih, orderedInsert_congr r1 r2 hequiv]

theorem getD_map_div (logits : List ℚ) (temp : ℚ) (i : ℕ) :
    (logits.map (fun x => x / temp)).getD i 0 = logits.getD i 0 / temp := by
  by_cases h : i < logits.length
  · exact getD_map_lt _ _ _ _ 0 h
  · rw [List.getD_eq_default _ _ (by simpa using (by omega : logits.length ≤ i)),
      List.getD_eq_default _ _ (by omega : logits.length ≤ i), zero_div]

theorem sortIdx_scale (logits : List ℚ) (temp : ℚ) (h : 0 < temp) :
    sortIdx (logits.map (fun x => x / temp)) = sortIdx logits := by
  unfold sortIdx
  rw [List.length_map]
  apply insertionSort_congr
  intro a b
  unfold sortRel
  rw [getD_map_div, getD_map_div]
  have hts : temp ≠ 0 := ne_of_gt h
  constructor
  · rintro (h1 | ⟨h1, h2⟩)
    · exact Or.inl ((div_lt_div_iff_of_pos_right h).mp h1)
    · refine Or.inr ⟨?_, h2⟩
      have h3 := congrArg (fun z => z * temp) h1
      simpa [div_mul_cancel₀, hts] using h3
  · rintro (h1 | ⟨h1, h2⟩)
    · exact Or.inl ((div_lt_div_iff_of_pos_right h).mpr h1)
    · exact Or.inr ⟨by rw [h1], h2⟩

/-! ## Characterization of the nucleus truncation length -/

theorem keepLenAux_some (p : ℚ) (l : List ℚ) (acc : ℚ) (m : ℕ)
    (h : keepLenAux p l acc = some m) :
    1 ≤ m ∧ m ≤ l.length ∧ p ≤ acc + (l.take m).sum ∧
      ∀ i, 1 ≤ i → i < m → acc + (l.take i).sum < p := by
  induction l generalizing acc m with
  | nil => simp [keepLenAux] at h
  | cons q rest ih =>
    rw [keepLenAux] at h
    by_cases hc : p ≤ acc + q
    · rw [if_pos hc] at h
      have hm : m = 1 := by
        cases h
        rfl
      subst hm
      refine ⟨le_refl 1, by simp only [List.length_cons]; omega,
        by simpa using hc, ?_⟩
      intro i hi1 hi2
      omega
    · rw [if_neg hc] at h
      cases haux : keepLenAux p rest (acc + q) with
      | none =>
        rw [haux] at h
        simp at h
      | some m2 =>
        rw [haux] at h
        have hm : m = m2 + 1 := by
          simp at h
          omega
        subst hm
        obtain ⟨h1, h2, h3, h4⟩ := ih (acc + q) m2 haux
        refine ⟨by omega, by simp only [List.length_cons]; omega, ?_, ?_⟩
        · rw [List.take_succ_cons, List.sum_cons]
          linarith
        · intro i hi1 hi2
          cases i with
          | zero => omega
          | succ i2 =>
            rw [List.take_succ_cons, List.sum_cons]
            cases i2 with
            | zero =>
              simp only [List.take_zero, List.sum_nil, add_zero]
              linarith
            | succ i3 =>
              have := h4 (i3 + 1) (by omega) (by omega)
              linarith

theorem keepLenAux_none (p : ℚ) (l : List ℚ) (acc : ℚ)
    (h : keepLenAux p l acc = none) (hne : l ≠ []) :
    acc + l.sum < p := by
  induction l generalizing acc with
  | nil => exact absurd rfl hne
  | cons q rest ih =>
    rw [keepLenAux] at h
    by_cases hc : p ≤ acc + q
    · rw [if_pos hc] at h
      simp at h
    · rw [if_neg hc] at h
      have haux : keepLenAux p rest (acc + q) = none := by
        cases h2 : keepLenAux p rest (acc + q) with
        | none => rfl
        | some m2 =>
          rw [h2] at h
          simp at h
      rw [List.sum_cons, ← add_assoc]
      by_cases hrest : rest = []
      · subst hrest
        simpa using not_le.mp hc
      · have := ih (acc + q) haux hrest
        linarith

theorem one_le_keepLen (p : ℚ) (sp : List ℚ) : 1 ≤ keepLen p sp := by
  unfold keepLen
  cases h : keepLenAux p sp 0 with
  | none => simp
  | some m =>
    simp only [Option.getD_some]
    exact (keepLenAux_some p sp 0 m h).1

theorem take_ne_nil_of_one_le {α : Type} (l : List α) (m : ℕ) (hm : 1 ≤ m)
    (hl : l ≠ []) : l.take m ≠ [] := by
  cases l with
  | nil => exact absurd rfl hl
  | cons a t =>
    cases m with
    | zero => omega
    | succ m2 => simp

theorem topPKeptIds_ne_nil (p : ℚ) (k : Option ℕ) (temp : ℚ)
    (logits : List ℚ) (h : logits ≠ []) :
    topPKeptIds p k temp logits ≠ [] := by
  have horder : sortIdx (maskedProbs k temp logits) ≠ [] := by
    have hlen : (sortIdx (maskedProbs k temp logits)).length =
        logits.length := by
      rw [sortIdx_length, maskedProbs_length]
    intro h0
    rw [h0] at hlen
    cases logits with
    | nil => exact absurd rfl h
    | cons a t => simp at hlen
  exact take_ne_nil_of_one_le _ _ (one_le_keepLen _ _) horder

/-- Witness for C5 (amended): token 7 has the strictly highest logit and its
candidate state `[1,1,1]` exactly matches the prior state, while candidate
slot 1 has similarity 1/3 < 1; the selection therefore avoids token 7. -/
theorem claim_C5_witness :
    contrastiveSelectStep 5 1 1
      ((List.range 26).map (fun i => if i = 7 then (1000000000 : ℚ) else 1))
      [[(1:ℚ), 1, 1], [1, 0, 0], [1, 0, 0], [1, 0, 0], [1, 0, 0]]
      [[(1:ℚ), 1, 1]] ≠ 7 :=
  claim_C5 5 1
    ((List.range 26).map (fun i => if i = 7 then (1000000000 : ℚ) else 1))
    [[(1:ℚ), 1, 1], [1, 0, 0], [1, 0, 0], [1, 0, 0], [1, 0, 0]]
    [[(1:ℚ), 1, 1]] 7 0 1 0 (by decide) (by decide) (by decide) (by decide)
    (by decide) (by decide) (by decide) (by decide)


/-! ## The Top-P selection with a top-k restriction stays in the top k -/

theorem headD_mem_take (l : List ℕ) (n : ℕ) (hn : 1 ≤ n) (hl : l ≠ []) :
    l.headD 0 ∈ l.take n := by
  cases l with
  | nil => exact absurd rfl hl
  | cons a t =>
    cases n with
    | zero => omega
    | succ n2 =>
      rw [List.take_succ_cons]
      show a ∈ a :: t.take n2
      exact List.mem_cons_self _ _

theorem kept_mass_pos (p : ℚ) (k : Option ℕ) (temp : ℚ) (logits : List ℚ)
    (x0 : ℕ) (hx0lt : x0 < logits.length)
    (hx0pos : 0 < (maskedProbs k temp logits).getD x0 0) :
    0 < ((topPKeptIds p k temp logits).map
      (fun i => (maskedProbs k temp logits).getD i 0)).sum := by
  have hmlen : (maskedProbs k temp logits).length = logits.length :=
    maskedProbs_length k temp logits
  have hslen : (sortIdx (maskedProbs k temp logits)).length =
      logits.length := by
    rw [sortIdx_length, hmlen]
  have hx0mem : x0 ∈ sortIdx (maskedProbs k temp logits) := by
    rw [sortIdx_mem, hmlen]
    exact hx0lt
  have hhead := sortIdx_head_ge (maskedProbs k temp logits) x0 hx0mem
  have hkept : topPKeptIds p k temp logits =
      (sortIdx (maskedProbs k temp logits)).take
        (keepLen p ((sortIdx (maskedProbs k temp logits)).map
          (fun i => (maskedProbs k temp logits).getD i 0))) := rfl
  cases hs : sortIdx (maskedProbs k temp logits) with
  | nil =>
    rw [hs] at hslen
    simp at hslen
    omega
  | cons o0 otl =>
    rw [hs] at hkept hhead
    have h1 := one_le_keepLen p ((o0 :: otl).map
      (fun i => (maskedProbs k temp logits).getD i 0))
    cases hkl : keepLen p ((o0 :: otl).map
        (fun i => (maskedProbs k temp logits).getD i 0)) with
    | zero => omega
    | succ kl =>
      rw [hkl, List.take_succ_cons] at hkept
      rw [hkept, List.map_cons, List.sum_cons]
      have hnn : 0 ≤ ((otl.take kl).map
          (fun i => (maskedProbs k temp logits).getD i 0)).sum := by
        apply List.sum_nonneg
        intro x hx
        obtain ⟨i, _, rfl⟩ := List.mem_map.mp hx
        exact maskedProbs_nonneg k temp logits i
      have hposo0 : 0 < (maskedProbs k temp logits).getD o0 0 := by
        simp only [List.headD_cons] at hhead
        linarith
      linarith

/-- C4: For the Top-P sampler constructed with `k = 5`, the selected token
id always lies among the 5 highest-logit ids of the row: for every `p`,
positive temperature, nonempty logits row and uniform draw `u` in `[0, 1)`
the selection falls in the first five positions of the descending sort of
the logits; and in the concrete test scenario (`p = 1`, `k = 5`, logits
strictly decreasing over ids 0..25, all-'z' prompt of length 12,
`index = 5`) every stream of draws yields "zzzzzaaaaaaa", all of whose
generated ids lie in {0, 1, 2, 3, 4}. -/
theorem claim_C4 :
    (∀ (p temp u : ℚ) (logits : List ℚ), 0 < temp → logits ≠ [] →
      0 ≤ u → u < 1 →
      topPSelect p (some 5) temp logits u ∈ (sortIdx logits).take 5) ∧
    (∀ u : ℕ → ℕ → ℚ,
      topPCall 1 (some 5) 1 u (descLogitsNext 26 5) [List.replicate 12 25]
        () 5 [] = [[25, 25, 25, 25, 25, 0, 0, 0, 0, 0, 0, 0]]) := by
  constructor
  · intro p temp u logits htemp hne hu0 hu1
    have hlen0 : 0 < logits.length := by
      cases logits with
      | nil => exact absurd rfl hne
      | cons a t => simp
    have hslen : (sortIdx (logits.map (fun x => x / temp))).length =
        logits.length := by
      rw [sortIdx_length, List.length_map]
    have hsne : sortIdx (logits.map (fun x => x / temp)) ≠ [] := by
      intro h0
      rw [h0] at hslen
      simp at hslen
      omega
    have hx0mem : (sortIdx (logits.map (fun x => x / temp))).headD 0 ∈
        sortIdx (logits.map (fun x => x / temp)) := by
      cases hs : sortIdx (logits.map (fun x => x / temp)) with
      | nil => exact absurd hs hsne
      | cons a t => simp
    have hx0lt : (sortIdx (logits.map (fun x => x / temp))).headD 0 <
        logits.length := by
      have := (sortIdx_mem _ _).mp hx0mem
      rwa [List.length_map] at this
    have hx0pos : 0 < (maskedProbs (some 5) temp logits).getD
        ((sortIdx (logits.map (fun x => x / temp))).headD 0) 0 := by
      have hmask : maskedProbs (some 5) temp logits =
          maskIdxFrom ((sortIdx (logits.map (fun x => x / temp))).take 5) 0
            (softmax (logits.map (fun x => x / temp))) := rfl
      rw [hmask, maskIdxFrom_getD, Nat.zero_add,
        if_pos (headD_mem_take _ 5 (by omega) hsne)]
      exact softmax_getD_pos _ _ (by rw [List.length_map]; exact hx0lt)
    have hmass := kept_mass_pos p (some 5) temp logits _ hx0lt hx0pos
    have hkne : topPKeptIds p (some 5) temp logits ≠ [] :=
      topPKeptIds_ne_nil p (some 5) temp logits hne
    have hkpne : (topPKeptIds p (some 5) temp logits).map
        (fun i => (maskedProbs (some 5) temp logits).getD i 0) ≠ [] := by
      intro h0
      rw [List.map_eq_nil_iff] at h0
      exact hkne h0
    have hjlt := drawIdx_lt_length
      (u * ((topPKeptIds p (some 5) temp logits).map
        (fun i => (maskedProbs (some 5) temp logits).getD i 0)).sum)
      ((topPKeptIds p (some 5) temp logits).map
        (fun i => (maskedProbs (some 5) temp logits).getD i 0)) hkpne
    rw [List.length_map] at hjlt
    have hpos := drawIdx_pos
      (u * ((topPKeptIds p (some 5) temp logits).map
        (fun i => (maskedProbs (some 5) temp logits).getD i 0)).sum)
      ((topPKeptIds p (some 5) temp logits).map
        (fun i => (maskedProbs (some 5) temp logits).getD i 0))
      (fun x hx => by
        obtain ⟨i, _, rfl⟩ := List.mem_map.mp hx
        exact maskedProbs_nonneg (some 5) temp logits i)
      (mul_nonneg hu0 (le_of_lt hmass))
      (mul_lt_of_lt_one_left hmass hu1)
    rw [getD_map_lt _ _ _ _ 0 hjlt] at hpos
    have hsel : topPSelect p (some 5) temp logits u =
        (topPKeptIds p (some 5) temp logits).getD
          (drawIdx (u * ((topPKeptIds p (some 5) temp logits).map
            (fun i => (maskedProbs (some 5) temp logits).getD i 0)).sum)
            ((topPKeptIds p (some 5) temp logits).map
              (fun i => (maskedProbs (some 5) temp logits).getD i 0))) 0 :=
      rfl
    rw [hsel]
    have hmem := maskedProbs_pos_mem 5 temp logits _ hpos
    rwa [sortIdx_scale logits temp htemp] at hmem
  · intro u
    have hkept : topPKeptIds 1 (some 5) 1
        ((List.range 26).map (fun t => ((26 - t : ℕ) : ℚ))) = [0] := by
      decide
    rw [topPCall_eq_refLoop 1 (some 5) 1 u (descLogitsNext 26 5) ()
      (fun _ => [(List.range 26).map (fun t => ((26 - t : ℕ) : ℚ))])
      (fun _ _ => 0) [] [List.replicate 12 25] 5
      (fun pr i hlen =>
        ⟨map_const_of_length_one pr _ (by simpa using hlen), rfl⟩)
      (fun s r h1 h2 hr => by
        have hr0 : r = 0 := by
          simp only [List.length_cons, List.length_nil] at hr
          omega
        subst hr0
        exact topPSelect_singleton _ _ _ _ _ _ hkept)]
    decide

/-- Witness for C4: at `p = 1`, `temperature = 1`, `u = 1/3` and the strictly
decreasing 26-token logits row, the selection lands in the top five sorted
ids, and the concrete run with the constant draw stream returns
"zzzzzaaaaaaa". -/
theorem claim_C4_witness :
    topPSelect 1 (some 5) 1
      ((List.range 26).map (fun t => ((26 - t : ℕ) : ℚ))) (1/3) ∈
      (sortIdx ((List.range 26).map (fun t => ((26 - t : ℕ) : ℚ)))).take 5 ∧
    topPCall 1 (some 5) 1 (fun _ _ => 1/3) (descLogitsNext 26 5)
      [List.replicate 12 25] () 5 [] =
      [[25, 25, 25, 25, 25, 0, 0, 0, 0, 0, 0, 0]] :=
  ⟨claim_C4.1 1 1 (1/3) ((List.range 26).map (fun t => ((26 - t : ℕ) : ℚ)))
    (by norm_num) (by decide) (by norm_num) (by norm_num),
   claim_C4.2 (fun _ _ => 1/3)⟩


/-- C6: The Top-P policy retains exactly the smallest leading set of the
descending-probability-sorted candidates whose cumulative probability
reaches `p` — at least the top-1 token when no prefix reaches `p` — and
samples only from that set: the kept ids are a leading prefix of the sorted
order, of length at least 1, whose mass reaches `p` unless the whole row's
mass is below `p` (in which case exactly the top-1 is kept), every shorter
nonempty prefix has mass below `p`, and every selection lies in the kept
set.  Concretely, with `p = 2/26` and logits giving ids 0, 1, 2 the equal
highest probability, every sampled position of the test run holds a token
id in {0, 1, 2}, for every stream of draws. -/
theorem claim_C6 :
    (∀ (p temp : ℚ) (k : Option ℕ) (logits : List ℚ), logits ≠ [] →
      topPKeptIds p k temp logits =
        (topPOrder k temp logits).take
          (topPKeptIds p k temp logits).length ∧
      1 ≤ (topPKeptIds p k temp logits).length ∧
      (p ≤ ((topPKeptIds p k temp logits).map
          (fun i => (maskedProbs k temp logits).getD i 0)).sum ∨
        (((topPOrder k temp logits).map
            (fun i => (maskedProbs k temp logits).getD i 0)).sum < p ∧
          (topPKeptIds p k temp logits).length = 1)) ∧
      (∀ i, 1 ≤ i → i < (topPKeptIds p k temp logits).length →
        (((topPOrder k temp logits).take i).map
          (fun j => (maskedProbs k temp logits).getD j 0)).sum < p) ∧
      (∀ u : ℚ,
        topPSelect p k temp logits u ∈ topPKeptIds p k temp logits)) ∧
    (∀ (u : ℕ → ℕ → ℚ) (j : ℕ), j < 12 →
      ((topPCall (2/26) none 1 u (threeHotNext 26 5) [List.replicate 12 25]
          () 0 []).getD 0 []).getD j 0 ∈ ([0, 1, 2] : List ℕ)) := by
  constructor
  · intro p temp k logits hne
    have hlen0 : 0 < logits.length := by
      cases logits with
      | nil => exact absurd rfl hne
      | cons a t => simp
    have holen : (topPOrder k temp logits).length = logits.length := by
      show (sortIdx (maskedProbs k temp logits)).length = logits.length
      rw [sortIdx_length, maskedProbs_length]
    have hsplen : ((topPOrder k temp logits).map
        (fun i => (maskedProbs k temp logits).getD i 0)).length =
        logits.length := by
      rw [List.length_map, holen]
    have hkept : topPKeptIds p k temp logits =
        (topPOrder k temp logits).take
          (keepLen p ((topPOrder k temp logits).map
            (fun i => (maskedProbs k temp logits).getD i 0))) := rfl
    have hmemsel : ∀ u : ℚ,
        topPSelect p k temp logits u ∈ topPKeptIds p k temp logits :=
      fun u2 => topPSelect_mem p k temp logits u2
        (topPKeptIds_ne_nil p k temp logits hne)
    cases haux : keepLenAux p ((topPOrder k temp logits).map
        (fun i => (maskedProbs k temp logits).getD i 0)) 0 with
    | some m =>
      obtain ⟨hm1, hm2, hm3, hm4⟩ := keepLenAux_some p _ 0 m haux
      have hkl : keepLen p ((topPOrder k temp logits).map
          (fun i => (maskedProbs k temp logits).getD i 0)) = m := by
        unfold keepLen
        rw [haux]
        rfl
      have hmlen : m ≤ (topPOrder k temp logits).length := by
        rw [hsplen] at hm2
        rw [holen]
        exact hm2
      have hklen : (topPKeptIds p k temp logits).length = m := by
        rw [hkept, hkl, List.length_take, min_eq_left hmlen]
      refine ⟨?_, ?_, ?_, ?_, hmemsel⟩
      · rw [hklen, hkept, hkl]
      · rw [hklen]
        exact hm1
      · left
        have hmap : (topPKeptIds p k temp logits).map
            (fun i => (maskedProbs k temp logits).getD i 0) =
            (((topPOrder k temp logits).map
              (fun i => (maskedProbs k temp logits).getD i 0)).take m) := by
          rw [hkept, hkl, List.map_take]
        rw [hmap]
        rw [zero_add] at hm3
        exact hm3
      · intro i hi1 hi2
        rw [hklen] at hi2
        have := hm4 i hi1 hi2
        rw [zero_add] at this
        rw [List.map_take]
        exact this
    | none =>
      have hkl : keepLen p ((topPOrder k temp logits).map
          (fun i => (maskedProbs k temp logits).getD i 0)) = 1 := by
        unfold keepLen
        rw [haux]
        rfl
      have hspne : (topPOrder k temp logits).map
          (fun i => (maskedProbs k temp logits).getD i 0) ≠ [] := by
        intro h0
        rw [h0] at hsplen
        simp at hsplen
        omega
      have htot := keepLenAux_none p _ 0 haux hspne
      rw [zero_add] at htot
      have h1len : 1 ≤ (topPOrder k temp logits).length := by
        rw [holen]
        omega
      have hklen : (topPKeptIds p k temp logits).length = 1 := by
        rw [hkept, hkl, List.length_take, min_eq_left h1len]
      refine ⟨?_, ?_, ?_, ?_, hmemsel⟩
      · rw [hklen, hkept, hkl]
      · rw [hklen]
      · exact Or.inr ⟨htot, hklen⟩
      · intro i hi1 hi2
        rw [hklen] at hi2
        omega
  · intro u j hj
    have hval := topPCall_no_stop_getD (2/26) none 1 u (threeHotNext 26 5) ()
      (fun _ => [(List.range 26).map (fun t => if t < 3 then (1:ℚ) else 0)])
      [List.replicate 12 25] 0
      (fun pr i hlen =>
        ⟨map_const_of_length_one pr _ (by simpa using hlen), rfl⟩) 0 j
    rw [hval, if_pos ⟨Nat.zero_le j, by simpa using hj, by simp,
      by simpa using hj⟩]
    have hkeptC : topPKeptIds (2/26) none 1
        ((List.range 26).map (fun t => if t < 3 then (1:ℚ) else 0)) =
        [0, 1] := by
      decide
    have hmem := topPSelect_mem (2/26) none 1
      ((List.range 26).map (fun t => if t < 3 then (1:ℚ) else 0)) (u j 0)
      (by rw [hkeptC]; simp)
    rw [hkeptC] at hmem
    show topPSelect (2/26) none 1
      ((List.range 26).map (fun t => if t < 3 then (1:ℚ) else 0)) (u j 0) ∈
      ([0, 1, 2] : List ℕ)
    simp only [List.mem_cons, List.not_mem_nil, or_false] at hmem
    rcases hmem with h | h <;> simp [h]

/-- Witness for C6: on the concrete three-hot logits row the selection with
draw `1/3` is in the kept set, and position 0 of the concrete run holds a
token id in {0, 1, 2}. -/
theorem claim_C6_witness :
    topPSelect (2/26) none 1
      ((List.range 26).map (fun t => if t < 3 then (1:ℚ) else 0)) (1/3) ∈
      topPKeptIds (2/26) none 1
        ((List.range 26).map (fun t => if t < 3 then (1:ℚ) else 0)) ∧
    ((topPCall (2/26) none 1 (fun _ _ => 1/3) (threeHotNext 26 5)
        [List.replicate 12 25] () 0 []).getD 0 []).getD 0 0 ∈
      ([0, 1, 2] : List ℕ) :=
  ⟨(claim_C6.1 (2/26) 1 none
      ((List.range 26).map (fun t => if t < 3 then (1:ℚ) else 0))
      (by decide)).2.2.2.2 (1/3),
   claim_C6.2 (fun _ _ => 1/3) 0 (by norm_num)⟩


/-! ## Temperature collapse: `pow2` and `expQ` growth bounds -/

theorem getD_cons_succ {α : Type} (a : α) (t : List α) (i : ℕ) (d : α) :
    (a :: t).getD (i + 1) d = t.getD i d := rfl

theorem pow2_eq_zpow (k : ℤ) : pow2 k = (2:ℚ) ^ k := by
  unfold pow2
  by_cases h : 0 ≤ k
  · rw [if_pos h]
    push_cast
    rw [← zpow_natCast (2:ℚ) k.toNat, Int.toNat_of_nonneg h]
  · rw [if_neg h]
    push_cast
    rw [← zpow_natCast (2:ℚ) (-k).toNat, Int.toNat_of_nonneg (by omega),
      one_div, ← zpow_neg, neg_neg]

theorem pow2_mono {j k : ℤ} (h : j ≤ k) : pow2 j ≤ pow2 k := by
  rw [pow2_eq_zpow, pow2_eq_zpow]
  exact zpow_le_zpow_right₀ one_le_two h

theorem pow2_add (j k : ℤ) : pow2 (j + k) = pow2 j * pow2 k := by
  rw [pow2_eq_zpow, pow2_eq_zpow, pow2_eq_zpow]
  exact zpow_add₀ two_ne_zero j k

theorem pow2_one : pow2 1 = 2 := by decide

theorem expQ_lower (x : ℚ) : pow2 ⌊x / 100000000⌋ ≤ expQ x := by
  unfold expQ
  have h1 := pow2_pos ⌊x / 100000000⌋
  have h2 : (0:ℚ) ≤ x / 100000000 - ⌊x / 100000000⌋ := by
    have := Int.floor_le (x / 100000000)
    linarith
  nlinarith [mul_nonneg (le_of_lt h1) h2]

theorem expQ_upper (x : ℚ) : expQ x ≤ pow2 (⌊x / 100000000⌋ + 1) := by
  unfold expQ
  rw [pow2_add, pow2_one]
  have h1 := pow2_pos ⌊x / 100000000⌋
  have h2 : x / 100000000 - ⌊x / 100000000⌋ ≤ 1 := by
    have := Int.lt_floor_add_one (x / 100000000)
    linarith
  nlinarith [mul_nonneg (le_of_lt h1)
    (by linarith : (0:ℚ) ≤ 1 - (x / 100000000 - ⌊x / 100000000⌋))]

theorem expQ_strictMono {x y : ℚ} (h : x < y) : expQ x < expQ y := by
  have hdiv : x / 100000000 < y / 100000000 :=
    div_lt_div_of_pos_right h (by norm_num)
  have hfl : ⌊x / 100000000⌋ ≤ ⌊y / 100000000⌋ :=
    Int.floor_mono (le_of_lt hdiv)
  rcases lt_or_eq_of_le hfl with hlt | heq
  · have h1 : expQ x < pow2 (⌊x / 100000000⌋ + 1) := by
      unfold expQ
      rw [pow2_add, pow2_one]
      have hp := pow2_pos ⌊x / 100000000⌋
      have h2 : x / 100000000 - ⌊x / 100000000⌋ < 1 := by
        have := Int.lt_floor_add_one (x / 100000000)
        linarith
      nlinarith [mul_pos hp
        (by linarith : (0:ℚ) < 1 - (x / 100000000 - ⌊x / 100000000⌋))]
    have h2 : pow2 (⌊x / 100000000⌋ + 1) ≤ pow2 ⌊y / 100000000⌋ :=
      pow2_mono (by omega)
    have h3 := expQ_lower y
    linarith
  · unfold expQ
    rw [← heq]
    have hp := pow2_pos ⌊x / 100000000⌋
    have h4 := mul_pos hp (sub_pos.mpr hdiv)
    nlinarith [h4]

/-! ## The head of the descending sort is the unique maximizer -/

theorem sortIdx_headD_of_max (xs : List ℚ) (m : ℕ) (hm : m < xs.length)
    (hmax : ∀ i, i < xs.length → i ≠ m → xs.getD i 0 < xs.getD m 0) :
    (sortIdx xs).headD 0 = m := by
  have hmmem : m ∈ sortIdx xs := (sortIdx_mem xs m).mpr hm
  have hne : sortIdx xs ≠ [] := by
    intro h0
    rw [h0] at hmmem
    simp at hmmem
  have hhmem : (sortIdx xs).headD 0 ∈ sortIdx xs := by
    cases hs : sortIdx xs with
    | nil => exact absurd hs hne
    | cons a t => simp
  have hhlt : (sortIdx xs).headD 0 < xs.length := (sortIdx_mem xs _).mp hhmem
  by_contra hne2
  have h1 := hmax _ hhlt hne2
  have h2 := sortIdx_head_ge xs m hmmem
  linarith

/-! ## A sum with all entries but one below a common bound -/

theorem sum_le_getD_add_bound (l : List ℚ) (m : ℕ) (B : ℚ)
    (hm : m < l.length) (hB : 0 ≤ B)
    (h : ∀ i, i < l.length → i ≠ m → l.getD i 0 ≤ B) :
    l.sum ≤ l.getD m 0 + (l.length : ℚ) * B := by
  induction l generalizing m with
  | nil => simp at hm
  | cons a t ih =>
    rw [List.sum_cons]
    cases m with
    | zero =>
      have hb : ∀ x ∈ t, x ≤ B := by
        intro x hx
        obtain ⟨i, hi, hig⟩ := List.mem_iff_getElem.mp hx
        have h2 := h (i + 1) (by simp only [List.length_cons]; omega)
          (by omega)
        rwa [getD_cons_succ, List.getD_eq_getElem t 0 hi, hig] at h2
      have ht : t.sum ≤ (t.length : ℚ) * B := by
        have h3 := List.sum_le_card_nsmul t B hb
        rwa [nsmul_eq_mul] at h3
      rw [List.getD_cons_zero]
      have hc : ((a :: t).length : ℚ) * B = (t.length : ℚ) * B + B := by
        simp only [List.length_cons]
        push_cast
        ring
      rw [hc]
      linarith
    | succ m2 =>
      have hm2 : m2 < t.length := by
        simp only [List.length_cons] at hm
        omega
      have ha : a ≤ B := by
        have h2 := h 0 (by simp only [List.length_cons]; omega) (by omega)
        rwa [List.getD_cons_zero] at h2
      have ht := ih m2 hm2 (fun i hi hine => by
        have h2 := h (i + 1) (by simp only [List.length_cons]; omega)
          (by omega)
        rwa [getD_cons_succ] at h2)
      rw [getD_cons_succ]
      have hc : ((a :: t).length : ℚ) * B = (t.length : ℚ) * B + B := by
        simp only [List.length_cons]
        push_cast
        ring
      rw [hc]
      linarith

theorem softmax_getD_eq (l : List ℚ) (i : ℕ) (h : i < l.length) :
    (softmax l).getD i 0 = expQ (l.getD i 0) / (l.map expQ).sum := by
  show ((l.map expQ).map (fun q => q / (l.map expQ).sum)).getD i 0 = _
  rw [getD_map_lt _ _ _ _ 0 (by simpa using h), getD_map_lt _ _ _ _ 0 h]

/-- C7: For every logits row with a unique maximum (index `m`, all other
entries lower by at least `δ > 0`) and every `p` in `(0, 1)` there is a
positive temperature threshold below which the Top-P nucleus degenerates to
the singleton `[m]` and the selection equals the greedy argmax `m` for every
draw; and in the concrete test scenario (`p = 1/2`,
`temperature = 10 ^ -9`, logits strictly decreasing over ids 0..25) the
whole returned buffer is token id 0 at every position, for every stream of
draws. -/
theorem claim_C7 :
    (∀ (logits : List ℚ) (m : ℕ) (p δ : ℚ), m < logits.length → 0 < δ →
      (∀ i, i < logits.length → i ≠ m →
        logits.getD i 0 + δ ≤ logits.getD m 0) →
      0 < p → p < 1 →
      ∃ t0 : ℚ, 0 < t0 ∧ ∀ temp : ℚ, 0 < temp → temp ≤ t0 →
        topPKeptIds p none temp logits = [m] ∧
        ∀ u : ℚ, topPSelect p none temp logits u = m) ∧
    (∀ u : ℕ → ℕ → ℚ,
      topPCall (1/2) none (1/1000000000) u (descLogitsNext 26 5)
        [List.replicate 12 25] () 0 [] = [List.replicate 12 0]) := by
  constructor
  · intro logits m p δ hm hδ hgap hp0 hp1
    obtain ⟨K, hK⟩ := pow_unbounded_of_one_lt
      ((2 * (logits.length : ℚ) * p) / (1 - p)) one_lt_two
    refine ⟨δ / (100000000 * ((K:ℚ) + 1)), div_pos hδ (by positivity), ?_⟩
    intro temp htemp0 htempt0
    have hc1 : (0:ℚ) < temp * 100000000 := mul_pos htemp0 (by norm_num)
    have htd : ((K:ℚ) + 1) ≤ δ / (temp * 100000000) := by
      rw [le_div_iff₀ hc1]
      have h2 := (le_div_iff₀
        (by positivity : (0:ℚ) < 100000000 * ((K:ℚ) + 1))).mp htempt0
      nlinarith [h2]
    have hF : (K : ℤ) + 1 ≤ ⌊δ / (temp * 100000000)⌋ := by
      apply Int.le_floor.mpr
      push_cast
      exact htd
    have hwlen : ((logits.map (fun x => x / temp)).map expQ).length =
        logits.length := by
      rw [List.length_map, List.length_map]
    have hwne : (logits.map (fun x => x / temp)).map expQ ≠ [] := by
      intro h0
      rw [h0] at hwlen
      simp at hwlen
      omega
    have hS0 : 0 < ((logits.map (fun x => x / temp)).map expQ).sum := by
      apply List.sum_pos
      · intro x hx
        obtain ⟨y, _, rfl⟩ := List.mem_map.mp hx
        exact expQ_pos y
      · exact hwne
    have hEm : ((logits.map (fun x => x / temp)).map expQ).getD m 0 =
        expQ (logits.getD m 0 / temp) := by
      rw [getD_map_lt _ _ _ _ 0 (by simpa using hm), getD_map_div]
    have hEm0 : 0 < expQ (logits.getD m 0 / temp) := expQ_pos _
    have hEi : ∀ i, i < ((logits.map (fun x => x / temp)).map expQ).length →
        i ≠ m → ((logits.map (fun x => x / temp)).map expQ).getD i 0 ≤
          expQ (logits.getD m 0 / temp) *
            pow2 (1 - ⌊δ / (temp * 100000000)⌋) := by
      intro i hi hine
      rw [hwlen] at hi
      rw [getD_map_lt _ _ _ _ 0 (by simpa using hi), getD_map_div]
      have hsi : logits.getD i 0 / temp + δ / temp ≤
          logits.getD m 0 / temp := by
        have h0 := hgap i hi hine
        have h1 : (logits.getD i 0 + δ) / temp ≤ logits.getD m 0 / temp :=
          (div_le_div_iff_of_pos_right htemp0).mpr h0
        rw [add_div] at h1
        exact h1
      have hmono : logits.getD i 0 / temp / 100000000 ≤
          logits.getD m 0 / temp / 100000000 - δ / (temp * 100000000) := by
        have h4 : (logits.getD i 0 / temp + δ / temp) / 100000000 ≤
            logits.getD m 0 / temp / 100000000 :=
          (div_le_div_iff_of_pos_right (by norm_num)).mpr hsi
        rw [add_div] at h4
        rw [← div_div]
        linarith
      have hfl1 : ⌊logits.getD i 0 / temp / 100000000⌋ ≤
          ⌊logits.getD m 0 / temp / 100000000⌋ -
            ⌊δ / (temp * 100000000)⌋ := by
        have hA := Int.floor_mono hmono
        have hB2 := Int.le_floor_add
          (logits.getD m 0 / temp / 100000000 - δ / (temp * 100000000))
          (δ / (temp * 100000000))
        rw [sub_add_cancel] at hB2
        omega
      have h4 := expQ_upper (logits.getD i 0 / temp)
      have h5 : pow2 (⌊logits.getD i 0 / temp / 100000000⌋ + 1) ≤
          pow2 (⌊logits.getD m 0 / temp / 100000000⌋ +
            (1 - ⌊δ / (temp * 100000000)⌋)) :=
        pow2_mono (by omega)
      have h6 : pow2 (⌊logits.getD m 0 / temp / 100000000⌋ +
            (1 - ⌊δ / (temp * 100000000)⌋)) =
          pow2 ⌊logits.getD m 0 / temp / 100000000⌋ *
            pow2 (1 - ⌊δ / (temp * 100000000)⌋) :=
        pow2_add _ _
      have h7 := expQ_lower (logits.getD m 0 / temp)
      have h8 : (0:ℚ) < pow2 (1 - ⌊δ / (temp * 100000000)⌋) := pow2_pos _
      have h9 : pow2 ⌊logits.getD m 0 / temp / 100000000⌋ *
            pow2 (1 - ⌊δ / (temp * 100000000)⌋) ≤
          expQ (logits.getD m 0 / temp) *
            pow2 (1 - ⌊δ / (temp * 100000000)⌋) :=
        mul_le_mul_of_nonneg_right h7 (le_of_lt h8)
      linarith
    have hS := sum_le_getD_add_bound
      ((logits.map (fun x => x / temp)).map expQ) m
      (expQ (logits.getD m 0 / temp) * pow2 (1 - ⌊δ / (temp * 100000000)⌋))
      (by rw [hwlen]; exact hm)
      (le_of_lt (mul_pos hEm0 (pow2_pos _))) hEi
    rw [hEm, hwlen] at hS
    have hρ : pow2 (1 - ⌊δ / (temp * 100000000)⌋) ≤ ((2:ℚ)^K)⁻¹ := by
      calc pow2 (1 - ⌊δ / (temp * 100000000)⌋) ≤ pow2 (-(K:ℤ)) :=
            pow2_mono (by omega)
        _ = ((2:ℚ)^K)⁻¹ := by
            rw [pow2_eq_zpow, zpow_neg, zpow_natCast]
    have hnp : (0:ℚ) ≤ (logits.length : ℚ) * p :=
      mul_nonneg (Nat.cast_nonneg _) (le_of_lt hp0)
    have h2K : (0:ℚ) < 2^K := by positivity
    have hKmul : 2 * ((logits.length : ℚ) * p) < (1 - p) * 2^K := by
      have h2 := (div_lt_iff₀ (sub_pos.mpr hp1)).mp hK
      nlinarith [h2]
    have hfinal : (logits.length : ℚ) * p *
        pow2 (1 - ⌊δ / (temp * 100000000)⌋) ≤ 1 - p := by
      have h3 : (logits.length : ℚ) * p *
            pow2 (1 - ⌊δ / (temp * 100000000)⌋) ≤
          (logits.length : ℚ) * p * ((2:ℚ)^K)⁻¹ :=
        mul_le_mul_of_nonneg_left hρ hnp
      have h4 : (logits.length : ℚ) * p * ((2:ℚ)^K)⁻¹ < 1 - p := by
        rw [← div_eq_mul_inv, div_lt_iff₀ h2K]
        nlinarith [hKmul, hnp]
      linarith
    have hPm : p ≤ (softmax (logits.map (fun x => x / temp))).getD m 0 := by
      rw [softmax_getD_eq _ _ (by simpa using hm), getD_map_div,
        le_div_iff₀ hS0]
      calc p * ((logits.map (fun x => x / temp)).map expQ).sum
          ≤ p * (expQ (logits.getD m 0 / temp) + (logits.length : ℚ) *
              (expQ (logits.getD m 0 / temp) *
                pow2 (1 - ⌊δ / (temp * 100000000)⌋))) :=
            mul_le_mul_of_nonneg_left hS (le_of_lt hp0)
        _ = expQ (logits.getD m 0 / temp) * (p + (logits.length : ℚ) * p *
              pow2 (1 - ⌊δ / (temp * 100000000)⌋)) := by
            ring
        _ ≤ expQ (logits.getD m 0 / temp) * 1 := by
            apply mul_le_mul_of_nonneg_left _ (le_of_lt hEm0)
            linarith
        _ = expQ (logits.getD m 0 / temp) := mul_one _
    have hmaskmax : ∀ i,
        i < (softmax (logits.map (fun x => x / temp))).length → i ≠ m →
        (softmax (logits.map (fun x => x / temp))).getD i 0 <
          (softmax (logits.map (fun x => x / temp))).getD m 0 := by
      intro i hi hine
      rw [softmax_length, List.length_map] at hi
      rw [softmax_getD_eq _ _ (by simpa using hi),
        softmax_getD_eq _ _ (by simpa using hm), getD_map_div, getD_map_div]
      apply (div_lt_div_iff_of_pos_right hS0).mpr
      apply expQ_strictMono
      apply div_lt_div_of_pos_right _ htemp0
      have := hgap i hi hine
      linarith
    have hhead : (sortIdx (softmax (logits.map (fun x => x / temp)))).headD
        0 = m :=
      sortIdx_headD_of_max _ m
        (by rw [softmax_length, List.length_map]; exact hm) hmaskmax
    have hone : sortIdx (softmax (logits.map (fun x => x / temp))) ≠ [] := by
      intro h0
      have h1 := sortIdx_length (softmax (logits.map (fun x => x / temp)))
      rw [h0, softmax_length, List.length_map] at h1
      simp at h1
      omega
    cases hs : sortIdx (softmax (logits.map (fun x => x / temp))) with
    | nil => exact absurd hs hone
    | cons o0 otl =>
      rw [hs] at hhead
      simp only [List.headD_cons] at hhead
      rw [hhead] at hs
      have hauxC : keepLenAux p ((m :: otl).map
          (fun i => (softmax (logits.map (fun x => x / temp))).getD i 0))
          0 = some 1 := by
        rw [List.map_cons, keepLenAux,
          if_pos (by rw [zero_add]; exact hPm)]
      have hkeptC : topPKeptIds p none temp logits = [m] := by
        have hk0 : topPKeptIds p none temp logits =
            (sortIdx (softmax (logits.map (fun x => x / temp)))).take
              (keepLen p
                ((sortIdx (softmax (logits.map (fun x => x / temp)))).map
                  (fun i => (softmax
                    (logits.map (fun x => x / temp))).getD i 0))) := rfl
        rw [hk0, hs]
        unfold keepLen
        rw [hauxC]
        rfl
      exact ⟨hkeptC, fun u2 => topPSelect_singleton _ _ _ _ _ _ hkeptC⟩
  · intro u
    have hkept : topPKeptIds (1/2) none (1/1000000000)
        ((List.range 26).map (fun t => ((26 - t : ℕ) : ℚ))) = [0] := by
      decide
    rw [topPCall_eq_refLoop (1/2) none (1/1000000000) u (descLogitsNext 26 5)
      () (fun _ => [(List.range 26).map (fun t => ((26 - t : ℕ) : ℚ))])
      (fun _ _ => 0) [] [List.replicate 12 25] 0
      (fun pr i hlen =>
        ⟨map_const_of_length_one pr _ (by simpa using hlen), rfl⟩)
      (fun s r h1 h2 hr => by
        have hr0 : r = 0 := by
          simp only [List.length_cons, List.length_nil] at hr
          omega
        subst hr0
        exact topPSelect_singleton _ _ _ _ _ _ hkept)]
    decide

/-- Witness for C7: on the two-token row `[0, 1]` with maximizer 1, gap 1
and `p = 1/2`, a positive temperature threshold exists below which the
nucleus is `[1]` and every draw selects token 1; and the concrete run with
the constant draw stream returns the all-zero buffer. -/
theorem claim_C7_witness :
    (∃ t0 : ℚ, 0 < t0 ∧ ∀ temp : ℚ, 0 < temp → temp ≤ t0 →
      topPKeptIds (1/2) none temp [(0:ℚ), 1] = [1] ∧
      ∀ u : ℚ, topPSelect (1/2) none temp [(0:ℚ), 1] u = 1) ∧
    topPCall (1/2) none (1/1000000000) (fun _ _ => 1/3) (descLogitsNext 26 5)
      [List.replicate 12 25] () 0 [] = [List.replicate 12 0] :=
  ⟨claim_C7.1 [(0:ℚ), 1] 1 (1/2) 1 (by decide) (by norm_num)
      (fun i hi hine => by
        have h0 : i = 0 := by
          simp only [List.length_cons, List.length_nil] at hi
          omega
        subst h0
        decide)
      (by norm_num) (by norm_num),
   claim_C7.2 (fun _ _ => 1/3)⟩

end Sampling

end KerasNlp
